import Mathlib

/-!
# Verification of the TOON converter repository

The repository consists of two Streamlit wrapper scripts
(`JSON-TOON-converter.py` and `Multi format data to TOON/multi_format_toon_converter.py`)
that call the external `python-toon` codec (`from toon import encode`).
The codec itself (encoder, decoder, value model, structural analyzer) is not
part of the repository sources; the specification defines its required
behaviour.  Accordingly the codec below is modelled from the specification,
while the wrapper-level facts (options dictionary, size statistics, XML
parsing) are embedded directly from the two Python source files.
-/

namespace Toon

/-- Modelled from the spec (section 3, Data Model): `Value` is a tagged union
`Null | Bool | Number | String | List | Map`.  The spec requires `Number` to
"preserve the literal numeric representation sufficiently to reproduce the
same textual form on re-encode", so a number is carried as its literal text.
A `Map` is an ordered sequence of key/value pairs (insertion order). -/
inductive Value where
  | null
  | bool (b : Bool)
  | num (lit : String)
  | str (s : String)
  | list (items : List Value)
  | map (entries : List (String × Value))
  deriving Repr

/-- Modelled from the spec (section 3): delimiter option,
one of comma, tab, pipe. -/
inductive Delim where
  | comma
  | tab
  | pipe
  deriving Repr, DecidableEq

/-- The delimiter character selected by a `Delim` option. -/
def Delim.char : Delim → Char
  | .comma => ','
  | .tab => '\t'
  | .pipe => '|'

/-- Modelled from the spec (section 3): `EncodeOptions` with `indent`
(spaces per nesting level, default 2), `delimiter` (default comma) and
`lengthMarker` (when enabled, array-length annotations are prefixed
with `#`). -/
structure EncodeOptions where
  indent : Nat := 2
  delimiter : Delim := .comma
  lengthMarker : Bool := false
  deriving Repr, DecidableEq

/-- The default options (indent 2, comma, no length marker). -/
def defaultOpts : EncodeOptions := {}

/-- The three delimiter characters. -/
def delimChars : List Char := [',', '\t', '|']

/-- Characters that may appear unquoted in keys and scalar strings.
Everything else (delimiters, quotes, backslash, newline, colon, brackets,
braces, `#`, spaces, …) forces quoting; the spec (section 9) leaves the
exact escaping rules to the implementation provided round trips hold. -/
def isSafeChar (c : Char) : Bool :=
  c.isAlphanum || c = '_' || c = '-' || c = '.'

/-- Escape one character for a quoted token: `"` and `\` are
backslash-escaped, a newline becomes `\n`. -/
def escChar (c : Char) : List Char :=
  if c = '"' then ['\\', '"']
  else if c = '\\' then ['\\', '\\']
  else if c = '\n' then ['\\', 'n']
  else [c]

/-- Escape a character sequence for a quoted token. -/
def escChars : List Char → List Char
  | [] => []
  | c :: tl => escChar c ++ escChars tl

/-- Wrap a string in double quotes, escaping its contents. -/
def quoteTok (s : String) : List Char :=
  '"' :: (escChars s.toList ++ ['"'])

/-- Decimal-number literal syntax: optional minus sign, one or more digits,
optionally followed by a dot and one or more digits. -/
def isNumLitChars (cs : List Char) : Bool :=
  let cs := if cs.head? = some '-' then cs.tail else cs
  let intPart := cs.takeWhile Char.isDigit
  let rest := cs.dropWhile Char.isDigit
  !intPart.isEmpty &&
    (rest.isEmpty ||
      (rest.head? = some '.' && !rest.tail.isEmpty && rest.tail.all Char.isDigit))

/-- Number literal syntax on strings. -/
def isNumLit (s : String) : Bool := isNumLitChars s.toList

/-- The reserved scalar literals of the format. -/
def isReserved (s : String) : Bool := s = "true" || s = "false" || s = "null"

/-- A token that can stand unquoted: non-empty and made of safe characters. -/
def plainTok (s : String) : Bool := !s.toList.isEmpty && s.toList.all isSafeChar

/-- Modelled from the spec (section 4.2, Scalars): a string is emitted raw
unless it is empty, contains a character needing protection, matches a
reserved literal or parses as a number; then it is quoted and escaped. -/
def renderStr (s : String) : List Char :=
  if plainTok s && !isReserved s && !isNumLit s then s.toList else quoteTok s

/-- Keys are emitted raw when they are plain tokens, quoted otherwise. -/
def renderKey (k : String) : List Char :=
  if plainTok k then k.toList else quoteTok k

/-- Scalar textual form: `null`, `true`/`false`, the number literal, or the
(possibly quoted) string.  Lists and maps have no scalar form. -/
def renderPrim : Value → List Char
  | .null => "null".toList
  | .bool true => "true".toList
  | .bool false => "false".toList
  | .num lit => lit.toList
  | .str s => renderStr s
  | _ => []

/-- Primitive values (Null, Bool, Number, String). -/
def Value.isPrim : Value → Bool
  | .null | .bool _ | .num _ | .str _ => true
  | _ => false

/-- Whether `v` is a Map over exactly the ordered key list `ks` with
exclusively primitive values. -/
def isPrimMapWithKeys (ks : List String) (v : Value) : Bool :=
  match v with
  | .map es => decide (es.map Prod.fst = ks) && es.all (fun e => e.2.isPrim)
  | _ => false

/-- Modelled from the spec (sections 3 and 4.1): a list is tabular-eligible
iff it is non-empty, every element is a Map, all elements share the same
ordered key set and every value under those keys is primitive; the header
key list is taken from the first element.  The grammar (section 6) requires
at least one key inside the braces, so an empty shared key set is not
tabular. -/
def tabularHeads : List Value → Option (List String)
  | .map es :: tl =>
    let ks := es.map Prod.fst
    if !ks.isEmpty && es.all (fun e => e.2.isPrim) &&
        tl.all (isPrimMapWithKeys ks) then some ks else none
  | _ => none

/-- All elements primitive (primitive-inline eligibility). -/
def allPrim (items : List Value) : Bool := items.all Value.isPrim

/-- Join tokens with a delimiter character. -/
def joinD (d : Char) : List (List Char) → List Char
  | [] => []
  | [t] => t
  | t :: ts => t ++ d :: joinD d ts

/-- The decimal digit characters. -/
def digitChar : Nat → Char
  | 0 => '0' | 1 => '1' | 2 => '2' | 3 => '3' | 4 => '4'
  | 5 => '5' | 6 => '6' | 7 => '7' | 8 => '8' | _ => '9'

/-- Decimal digits of a natural number (fuelled; `natChars` supplies enough
fuel). -/
def natCharsAux : Nat → Nat → List Char
  | 0, _ => []
  | f + 1, n =>
    if n < 10 then [digitChar n]
    else natCharsAux f (n / 10) ++ [digitChar (n % 10)]

/-- Decimal representation of a natural number. -/
def natChars (n : Nat) : List Char := natCharsAux (n + 1) n

/-- An encoded line: indentation width in spaces, and the line content. -/
abbrev Line := Nat × List Char

/-- The bracketed length annotation `[L]` or `[#L]` per `lengthMarker`. -/
def lenPart (opts : EncodeOptions) (n : Nat) : List Char :=
  '[' :: ((if opts.lengthMarker then ['#'] else []) ++ natChars n ++ [']'])

/-- One tabular data row: the row's primitive values joined by the
delimiter.  Non-map rows (excluded by tabular eligibility) give no cells. -/
def renderRow (opts : EncodeOptions) : Value → List Char
  | .map es => joinD opts.delimiter.char (es.map (fun e => renderPrim e.2))
  | _ => []

/-- Modelled from the spec (section 4.2): the non-recursive list layouts.
`pre` is what precedes the bracket (`key`, `- `, or nothing at the root).
Returns the emitted lines for a tabular or primitive-inline (or empty)
list, and `none` for a Mixed list (handled recursively by the caller). -/
def primListLines (opts : EncodeOptions) (w : Nat) (pre : List Char)
    (items : List Value) : Option (List Line) :=
  match tabularHeads items with
  | some ks =>
    some ((w, pre ++ lenPart opts items.length ++
            '{' :: (joinD opts.delimiter.char (ks.map renderKey) ++ ['}', ':'])) ::
          items.map (fun row => (w + opts.indent, renderRow opts row)))
  | none =>
    if allPrim items then
      if items.isEmpty then
        some [(w, pre ++ lenPart opts 0 ++ [':'])]
      else
        some [(w, pre ++ lenPart opts items.length ++
                ':' :: ' ' :: joinD opts.delimiter.char (items.map renderPrim))]
    else none

/-- Header line content of a Mixed list block. -/
def mixedHeader (opts : EncodeOptions) (pre : List Char) (n : Nat) : List Char :=
  pre ++ lenPart opts n ++ [':']

mutual
/-- Lines of one labelled slot (a Map entry or a Mixed-list item).
`scalarPre` precedes a scalar value on its line (`key: ` or `- `), `hd` is
the header line content opening a nested Map block (`key:` or `-`), and
`listPre` precedes the bracket of a list header (`key` or `- `). -/
def encValueB (opts : EncodeOptions) (w : Nat)
    (scalarPre hd listPre : List Char) : Value → List Line
  | .map es =>
    (w, hd) :: encEntries opts (w + opts.indent) es
  | .list items =>
    (match primListLines opts w listPre items with
     | some ls => ls
     | none =>
       (w, mixedHeader opts listPre items.length) ::
         encItems opts (w + opts.indent) items)
  | v' => [(w, scalarPre ++ renderPrim v')]

/-- Modelled from the spec (section 4.2, Map): one line per key in order;
scalar and inline-eligible children are rendered after `key: `, nested maps
and tabular/mixed lists open an indented block. -/
def encEntries (opts : EncodeOptions) (w : Nat) : List (String × Value) → List Line
  | [] => []
  | (k, v) :: tl =>
    encValueB opts w (renderKey k ++ [':', ' ']) (renderKey k ++ [':'])
      (renderKey k) v ++
    encEntries opts w tl

/-- Modelled from the spec (section 4.2, Mixed List): each element becomes a
block entry with a leading dash; scalar items inline after `- `, map items
open a block under a bare `-`, list items put their header after `- `. -/
def encItems (opts : EncodeOptions) (w : Nat) : List Value → List Line
  | [] => []
  | v :: tl =>
    encValueB opts w ['-', ' '] ['-'] ['-', ' '] v ++
    encItems opts w tl
end

/-- Text of one line: indentation spaces followed by the content. -/
def lineText (l : Line) : List Char := List.replicate l.1 ' ' ++ l.2

/-- Join lines with newlines. -/
def joinLines : List Line → List Char
  | [] => []
  | [l] => lineText l
  | l :: ls => lineText l ++ '\n' :: joinLines ls

/-- Modelled from the spec (sections 4.2 and 6): `encode` converts a Value
tree to TOON text.  A root Map lists its entries at depth 0, a root List
uses the keyless header forms, a root scalar is its scalar text. -/
def encode (v : Value) (opts : EncodeOptions) : String :=
  match v with
  | .map es => ⟨joinLines (encEntries opts 0 es)⟩
  | .list items =>
    (match primListLines opts 0 [] items with
     | some ls => ⟨joinLines ls⟩
     | none =>
       ⟨joinLines ((0, mixedHeader opts [] items.length) ::
           encItems opts opts.indent items)⟩)
  | v' => ⟨joinLines [(0, renderPrim v')]⟩


/-! ## Decoder

Modelled from the spec (section 4.3): a line-oriented parser that rebuilds
the Value tree from indentation structure, with declared array lengths
authoritative.  The recursive parsers carry explicit fuel (the spec,
section 5, requires a recursion guard reporting `DepthExceeded`);
`decode` supplies enough fuel for any input.  -/

/-- Modelled from the spec (section 4.3, error taxonomy). -/
inductive Err where
  | indentation
  | lengthMismatch
  | delimiterAmbiguity
  | unterminatedQuote
  | unknownLineForm
  | depthExceeded
  deriving Repr, DecidableEq

/-- Split a character stream at newlines. -/
def splitLinesChars : List Char → List (List Char)
  | [] => [[]]
  | c :: rest =>
    if c = '\n' then [] :: splitLinesChars rest
    else
      match splitLinesChars rest with
      | l :: ls => (c :: l) :: ls
      | [] => [[c]]

/-- Leading-space count and remaining content of one raw line. -/
def lineOf (cs : List Char) : Line :=
  ((cs.takeWhile (fun c => c = ' ')).length, cs.dropWhile (fun c => c = ' '))

/-- The indented lines of a text, blank lines dropped. -/
def toLines (cs : List Char) : List Line :=
  ((splitLinesChars cs).map lineOf).filter (fun l => !l.2.isEmpty)

/-- Undo one escape: `\n` denotes a newline, any other escaped character
stands for itself. -/
def unescChar (c : Char) : Char := if c = 'n' then '\n' else c

/-- Consume a quoted token body after the opening quote: returns the
unescaped content and the characters after the closing quote. -/
def takeQuoted : List Char → Option (List Char × List Char)
  | [] => none
  | c :: rest =>
    if c = '"' then some ([], rest)
    else if c = '\\' then
      match rest with
      | [] => none
      | c2 :: rest2 =>
        match takeQuoted rest2 with
        | some (body, r) => some (unescChar c2 :: body, r)
        | none => none
    else
      match takeQuoted rest with
      | some (body, r) => some (c :: body, r)
      | none => none

/-- Parse the key of a keyed line (plain or quoted), requiring `:` or `[`
right after it; returns the key and the remainder starting at that
character. -/
def splitKey : List Char → Option (String × List Char)
  | [] => none
  | c :: rest =>
    if c = '"' then
      match takeQuoted rest with
      | some (body, r) =>
        if r.head? = some ':' || r.head? = some '[' then some (⟨body⟩, r)
        else none
      | none => none
    else
      let cs := c :: rest
      let k := cs.takeWhile isSafeChar
      let r := cs.dropWhile isSafeChar
      if k.isEmpty then none
      else if r.head? = some ':' || r.head? = some '[' then some (⟨k⟩, r)
      else none

/-- Quote-aware splitter for delimited value sequences.  Modelled from the
spec (section 4.3, step 2): the delimiter is inferred from the text itself —
the first delimiter character found outside quotes — and quoted segments
are never split. -/
def splitValsAux : Option Char → List Char → Bool → List Char → List (List Char)
  | _, [], _, acc => [acc.reverse]
  | found, c :: rest, true, acc =>
    if c = '\\' then
      match rest with
      | [] => [(c :: acc).reverse]
      | c2 :: rest2 => splitValsAux found rest2 true (c2 :: c :: acc)
    else if c = '"' then splitValsAux found rest false (c :: acc)
    else splitValsAux found rest true (c :: acc)
  | found, c :: rest, false, acc =>
    match found with
    | some d =>
      if c = d then acc.reverse :: splitValsAux found rest false []
      else if c = '"' then splitValsAux found rest true (c :: acc)
      else splitValsAux found rest false (c :: acc)
    | none =>
      if c = ',' || c = '\t' || c = '|' then
        acc.reverse :: splitValsAux (some c) rest false []
      else if c = '"' then splitValsAux found rest true (c :: acc)
      else splitValsAux found rest false (c :: acc)

/-- Split a delimited sequence into tokens (the delimiter inferred from the
first top-level delimiter character). -/
def splitVals (cs : List Char) : List (List Char) :=
  splitValsAux none cs false []

/-- Scalar token parse: quoted tokens are strings; otherwise the reserved
literals, then number syntax, then a plain string. -/
def parseScalarToken : List Char → Except Err Value
  | [] => .ok (.str "")
  | c :: rest =>
    if c = '"' then
      match takeQuoted rest with
      | some (body, []) => .ok (.str ⟨body⟩)
      | _ => .error .unterminatedQuote
    else
      let cs := c :: rest
      if cs = "null".toList then .ok .null
      else if cs = "true".toList then .ok (.bool true)
      else if cs = "false".toList then .ok (.bool false)
      else if isNumLitChars cs then .ok (.num ⟨cs⟩)
      else .ok (.str ⟨cs⟩)

/-- Parse a list of scalar tokens. -/
def pScalars : List (List Char) → Except Err (List Value)
  | [] => .ok []
  | t :: tl =>
    match parseScalarToken t with
    | .ok v =>
      match pScalars tl with
      | .ok vs => .ok (v :: vs)
      | .error e => .error e
    | .error e => .error e

/-- Parse one header key token (plain or quoted). -/
def parseKeyTok : List Char → Except Err String
  | [] => .ok ""
  | c :: rest =>
    if c = '"' then
      match takeQuoted rest with
      | some (body, []) => .ok ⟨body⟩
      | _ => .error .unterminatedQuote
    else .ok ⟨c :: rest⟩

/-- Parse the header key tokens of a tabular block. -/
def pKeys : List (List Char) → Except Err (List String)
  | [] => .ok []
  | t :: tl =>
    match parseKeyTok t with
    | .ok k =>
      match pKeys tl with
      | .ok ks => .ok (k :: ks)
      | .error e => .error e
    | .error e => .error e

/-- Parse the data rows of a tabular block: each row is split by the
inferred delimiter, must have exactly one field per header key, and yields
a Map assigning the i-th field to the i-th key. -/
def pRows (ks : List String) : List Line → Except Err (List Value)
  | [] => .ok []
  | (_, rc) :: tl =>
    let toks := splitVals rc
    if toks.length = ks.length then
      match pScalars toks with
      | .ok prims =>
        match pRows ks tl with
        | .ok rest => .ok (.map (ks.zip prims) :: rest)
        | .error e => .error e
      | .error e => .error e
    else .error .delimiterAmbiguity

/-- Decimal digits to a natural number. -/
def digitsToNat (cs : List Char) : Nat :=
  cs.foldl (fun a c => a * 10 + (c.toNat - 48)) 0

/-- The three list-header forms after the closing bracket: nothing (empty
or Mixed block), inline values, or a tabular brace group. -/
inductive HForm where
  | block
  | inline (vals : List Char)
  | tab (mid : List Char)
  deriving Repr, DecidableEq

/-- Parse a list header after the opening bracket: optional `#` marker
(accepted and ignored identically whether present or not), the declared
length, `]`, then `:` (optionally followed by inline values) or a `{…}:`
brace group whose content is kept for header-key splitting. -/
def parseHeader (cs : List Char) : Option (Nat × HForm) :=
  let cs1 := if cs.head? = some '#' then cs.tail else cs
  let ds := cs1.takeWhile Char.isDigit
  let cs2 := cs1.dropWhile Char.isDigit
  if ds.isEmpty then none
  else
    match cs2 with
    | ']' :: ':' :: tailc =>
      (match tailc with
       | [] => some (digitsToNat ds, .block)
       | ' ' :: vals => some (digitsToNat ds, .inline vals)
       | _ => none)
    | ']' :: '{' :: more =>
      (match more.reverse with
       | ':' :: '}' :: midrev => some (digitsToNat ds, .tab midrev.reverse)
       | _ => none)
    | _ => none

/-- The lines of a nested block: the following lines more indented than
`w`. -/
def takeDeeper (w : Nat) : List Line → List Line
  | [] => []
  | l :: tl => if w < l.1 then l :: takeDeeper w tl else []

/-- The lines after a nested block. -/
def dropDeeper (w : Nat) : List Line → List Line
  | [] => []
  | l :: tl => if w < l.1 then dropDeeper w tl else l :: tl

mutual
/-- Parse a run of Map-entry lines, all at indent `w`; each entry may own a
more-indented child block. -/
def pEntries : Nat → Nat → List Line → Except Err (List (String × Value))
  | 0, _, _ => .error .depthExceeded
  | _ + 1, _, [] => .ok []
  | f + 1, w, (w1, c) :: rest =>
    if w1 = w then
      match splitKey c with
      | none => .error .unknownLineForm
      | some (k, r) =>
        match r with
        | ':' :: rtail =>
          (match rtail with
           | [] =>
             (match pBlockValue f (takeDeeper w rest) with
              | .ok v =>
                (match pEntries f w (dropDeeper w rest) with
                 | .ok tl => .ok ((k, v) :: tl)
                 | .error e => .error e)
              | .error e => .error e)
           | ' ' :: tok =>
             (match parseScalarToken tok with
              | .ok v =>
                (match pEntries f w rest with
                 | .ok tl => .ok ((k, v) :: tl)
                 | .error e => .error e)
              | .error e => .error e)
           | _ => .error .unknownLineForm)
        | '[' :: rtail =>
          (match parseHeader rtail with
           | none => .error .unknownLineForm
           | some (n, form) =>
             (match pListBody f n form (takeDeeper w rest) with
              | .ok v =>
                (match pEntries f w (dropDeeper w rest) with
                 | .ok tl => .ok ((k, v) :: tl)
                 | .error e => .error e)
              | .error e => .error e))
        | _ => .error .unknownLineForm
    else .error .indentation

/-- A child block under `key:` or a bare `-`: an empty block is the empty
Map, otherwise the block's lines are Map entries at the indent of its
first line. -/
def pBlockValue : Nat → List Line → Except Err Value
  | 0, _ => .error .depthExceeded
  | _ + 1, [] => .ok (.map [])
  | f + 1, (w1, c) :: rest =>
    match pEntries f w1 ((w1, c) :: rest) with
    | .ok es => .ok (.map es)
    | .error e => .error e

/-- The body of a list under a parsed header.  Modelled from the spec
(section 4.3, step 7): the declared length is authoritative — any
mismatch with the consumed rows/items raises `LengthMismatch`. -/
def pListBody : Nat → Nat → HForm → List Line → Except Err Value
  | 0, _, _, _ => .error .depthExceeded
  | f + 1, n, .block, block =>
    if n = 0 then
      (if block.isEmpty then .ok (.list []) else .error .lengthMismatch)
    else
      (match block with
       | [] => .error .lengthMismatch
       | (w1, c) :: rest =>
         match pItems f w1 ((w1, c) :: rest) with
         | .ok vs => if vs.length = n then .ok (.list vs) else .error .lengthMismatch
         | .error e => .error e)
  | _ + 1, n, .inline vals, block =>
    if block.isEmpty then
      (let toks := splitVals vals
       if toks.length = n then
         match pScalars toks with
         | .ok vs => .ok (.list vs)
         | .error e => .error e
       else .error .lengthMismatch)
    else .error .unknownLineForm
  | _ + 1, n, .tab mid, block =>
    if block.length = n then
      (match pKeys (splitVals mid) with
       | .ok ks =>
         (match pRows ks block with
          | .ok rows => .ok (.list rows)
          | .error e => .error e)
       | .error e => .error e)
    else .error .lengthMismatch

/-- Parse a run of Mixed-list item lines, all at indent `w`, each starting
with a dash: `- scalar`, a bare `-` opening a Map block, or `- [` opening a
nested list. -/
def pItems : Nat → Nat → List Line → Except Err (List Value)
  | 0, _, _ => .error .depthExceeded
  | _ + 1, _, [] => .ok []
  | f + 1, w, (w1, c) :: rest =>
    if w1 = w then
      match c with
      | '-' :: ctail =>
        (match ctail with
         | [] =>
           (match pBlockValue f (takeDeeper w rest) with
            | .ok v =>
              (match pItems f w (dropDeeper w rest) with
               | .ok vs => .ok (v :: vs)
               | .error e => .error e)
            | .error e => .error e)
         | ' ' :: tok =>
           (match tok with
            | '[' :: rtail =>
              (match parseHeader rtail with
               | none => .error .unknownLineForm
               | some (n, form) =>
                 (match pListBody f n form (takeDeeper w rest) with
                  | .ok v =>
                    (match pItems f w (dropDeeper w rest) with
                     | .ok vs => .ok (v :: vs)
                     | .error e => .error e)
                  | .error e => .error e))
            | _ =>
              (match parseScalarToken tok with
               | .ok v =>
                 (match pItems f w rest with
                  | .ok vs => .ok (v :: vs)
                  | .error e => .error e)
               | .error e => .error e))
         | _ => .error .unknownLineForm)
      | _ => .error .unknownLineForm
    else .error .indentation
end

/-- Parse a whole document: no lines is the empty Map, a leading `[` is a
root list header (with its block making up the rest of the text), a keyed
first line opens root Map entries, and a single unkeyed line is a root
scalar. -/
def parseRoot (fuel : Nat) : List Line → Except Err Value
  | [] => .ok (.map [])
  | (w0, c) :: rest =>
    match c with
    | '[' :: rtail =>
      (match parseHeader rtail with
       | none => .error .unknownLineForm
       | some (n, form) =>
         if (dropDeeper w0 rest).isEmpty then
           pListBody fuel n form (takeDeeper w0 rest)
         else .error .unknownLineForm)
    | _ =>
      match splitKey c with
      | some _ =>
        (match pEntries fuel w0 ((w0, c) :: rest) with
         | .ok es => .ok (.map es)
         | .error e => .error e)
      | none =>
        if rest.isEmpty then parseScalarToken c else .error .unknownLineForm

/-- Modelled from the spec (sections 4.3 and 6): `decode` parses TOON text
back into the Value Model, rejecting malformed input with a tagged
error. -/
def decode (text : String) : Except Err Value :=
  let ls := toLines text.toList
  parseRoot (2 * ls.length + 2) ls

/-! ## Well-formedness predicates -/

mutual
/-- Well-formed Value trees: every Number literal has valid decimal-number
syntax (the Number canonicalization premise of the round-trip property). -/
def wfV : Value → Bool
  | .num lit => isNumLitChars lit.toList
  | .list items => wfL items
  | .map es => wfE es
  | _ => true

/-- `wfV` on every element. -/
def wfL : List Value → Bool
  | [] => true
  | v :: tl => wfV v && wfL tl

/-- `wfV` on every entry value. -/
def wfE : List (String × Value) → Bool
  | [] => true
  | (_, v) :: tl => wfV v && wfE tl
end

/-- Pairwise-distinct strings. -/
def keysDistinct : List String → Bool
  | [] => true
  | k :: tl => !(tl.contains k) && keysDistinct tl

mutual
/-- Freedom from duplicate Map keys, everywhere in the tree. -/
def dupFreeV : Value → Bool
  | .list items => dupFreeL items
  | .map es => keysDistinct (es.map Prod.fst) && dupFreeE es
  | _ => true

/-- `dupFreeV` on every element. -/
def dupFreeL : List Value → Bool
  | [] => true
  | v :: tl => dupFreeV v && dupFreeL tl

/-- `dupFreeV` on every entry value. -/
def dupFreeE : List (String × Value) → Bool
  | [] => true
  | (_, v) :: tl => dupFreeV v && dupFreeE tl
end

end Toon

namespace Wrapper

/-! ## Wrapper-level code, embedded from the two Python sources -/

/-- A Python value appearing in the `encode_options` dictionary. -/
inductive PyOptVal where
  | int (n : Int)
  | str (s : String)
  | bool (b : Bool)
  deriving Repr, DecidableEq

/-- Embedded from `JSON-TOON-converter.py` (lines 151-156) and
`multi_format_toon_converter.py` (lines 266-271), identical in both:
`encode_options = {"indent": indent_size, "delimiter": delimiter,
"lengthMarker": "#" if use_length_marker else False}`. -/
def encodeOptionsDict (indentSize : Int) (delimiter : String)
    (useLengthMarker : Bool) : List (String × PyOptVal) :=
  [("indent", .int indentSize),
   ("delimiter", .str delimiter),
   ("lengthMarker", if useLengthMarker then .str "#" else .bool false)]

/-- Embedded from `JSON-TOON-converter.py` (line 165) and
`multi_format_toon_converter.py` (line 280):
`reduction = 100 * (1 - toon_size / json_size)`, with Python's float
division idealized as exact rational arithmetic. -/
def reduction (jsonSize toonSize : Nat) : ℚ :=
  100 * (1 - (toonSize : ℚ) / (jsonSize : ℚ))

/-- JSON string escaping for one character (quote, backslash and newline;
enough for the serializations considered here). -/
def jsonEscChar (c : Char) : List Char :=
  if c = '"' then ['\\', '"']
  else if c = '\\' then ['\\', '\\']
  else if c = '\n' then ['\\', 'n']
  else [c]

/-- JSON string escaping. -/
def jsonEsc : List Char → List Char
  | [] => []
  | c :: tl => jsonEscChar c ++ jsonEsc tl

/-- A JSON string literal. -/
def jsonStr (s : String) : List Char := '"' :: (jsonEsc s.toList ++ ['"'])

mutual
/-- Modelled from the Python standard library call `json.dumps(data, indent=2)`
used by both wrappers (lines 162 and 277): two-space-indented JSON text at
nesting depth `d`. -/
def jdV (d : Nat) : Toon.Value → List Char
  | .null => "null".toList
  | .bool true => "true".toList
  | .bool false => "false".toList
  | .num lit => lit.toList
  | .str s => jsonStr s
  | .list items =>
    if items.isEmpty then "[]".toList
    else '[' :: '\n' :: (jdItems (d + 1) items ++
      '\n' :: (List.replicate (2 * d) ' ' ++ [']']))
  | .map es =>
    if es.isEmpty then "{}".toList
    else '{' :: '\n' :: (jdEntries (d + 1) es ++
      '\n' :: (List.replicate (2 * d) ' ' ++ ['}']))

/-- Array items of the indented serialization, separated by `,\n`. -/
def jdItems (d : Nat) : List Toon.Value → List Char
  | [] => []
  | v :: tl =>
    List.replicate (2 * d) ' ' ++ jdV d v ++
    (if tl.isEmpty then [] else [',', '\n']) ++ jdItems d tl

/-- Object entries of the indented serialization, separated by `,\n`. -/
def jdEntries (d : Nat) : List (String × Toon.Value) → List Char
  | [] => []
  | (k, v) :: tl =>
    List.replicate (2 * d) ' ' ++ jsonStr k ++ ':' :: ' ' :: jdV d v ++
    (if tl.isEmpty then [] else [',', '\n']) ++ jdEntries d tl
end

/-- The two-space-indented JSON text whose length both wrappers use as the
reduction divisor (`json_str = json.dumps(data, indent=2)`). -/
def jsonDumps (v : Toon.Value) : String := ⟨jdV 0 v⟩

mutual
/-- Modelled from the spec (section 8, size-reduction sample): the canonical
compact JSON text of a value, with no whitespace between tokens. -/
def jcV : Toon.Value → List Char
  | .null => "null".toList
  | .bool true => "true".toList
  | .bool false => "false".toList
  | .num lit => lit.toList
  | .str s => jsonStr s
  | .list items => '[' :: (jcItems items ++ [']'])
  | .map es => '{' :: (jcEntries es ++ ['}'])

/-- Comma-separated compact array items. -/
def jcItems : List Toon.Value → List Char
  | [] => []
  | v :: tl => jcV v ++ (if tl.isEmpty then [] else [',']) ++ jcItems tl

/-- Comma-separated compact object entries. -/
def jcEntries : List (String × Toon.Value) → List Char
  | [] => []
  | (k, v) :: tl =>
    jsonStr k ++ ':' :: jcV v ++ (if tl.isEmpty then [] else [',']) ++ jcEntries tl
end

/-- Canonical compact JSON text of a value. -/
def jsonCompact (v : Toon.Value) : String := ⟨jcV v⟩

/-! ## XML parsing (multi-format wrapper) -/

/-- An `xml.etree.ElementTree` element as seen by `parse_xml`: tag,
attribute pairs, text before the first child, and child elements. -/
inductive XmlElem where
  | mk (tag : String) (attrib : List (String × String)) (text : Option String)
       (children : List XmlElem)

/-- The element's tag. -/
def tagOf : XmlElem → String
  | .mk t _ _ _ => t

/-- Python whitespace stripped by `str.strip()`. -/
def isPyWS (c : Char) : Bool :=
  c = ' ' || c = '\t' || c = '\n' || c = '\r'

/-- `str.strip()`: remove leading and trailing whitespace. -/
def stripStr (s : String) : String :=
  ⟨((s.toList.dropWhile isPyWS).reverse.dropWhile isPyWS).reverse⟩

/-- Truthiness of `element.text and element.text.strip()`. -/
def textOk : Option String → Bool
  | none => false
  | some s => !(stripStr s).isEmpty

/-- The stripped text (empty when absent). -/
def stripOf : Option String → String
  | none => ""
  | some s => stripStr s

/-- Python dict assignment `d[k] = v` on an insertion-ordered dictionary:
update in place when the key exists, append otherwise. -/
def setAt : List (String × Toon.Value) → String → Toon.Value →
    List (String × Toon.Value)
  | [], k, v => [(k, v)]
  | (q, u) :: tl, k, v =>
    if q = k then (k, v) :: tl else (q, u) :: setAt tl k v

/-- Dictionary lookup. -/
def lookupV : List (String × Toon.Value) → String → Option Toon.Value
  | [], _ => none
  | (q, u) :: tl, k => if q = k then some u else lookupV tl k

/-- Embedded from `multi_format_toon_converter.py` (lines 101-108), the
per-child step of `xml_to_dict`: a repeated tag accumulates a list (the
first repetition wraps the existing non-list binding), a fresh tag binds
its value directly. -/
def xmlStep (r : List (String × Toon.Value)) (tag : String) (x : Toon.Value) :
    List (String × Toon.Value) :=
  match lookupV r tag with
  | none => setAt r tag x
  | some (.list vs) => setAt r tag (.list (vs ++ [x]))
  | some old => setAt r tag (.list [old, x])

mutual
/-- Embedded from `multi_format_toon_converter.py` (lines 88-110),
`xml_to_dict`: attributes under `@attributes`, stripped text returned
directly for childless elements and stored under `#text` otherwise,
children folded in document order, and `None` for an empty result. -/
def xmlToDict : XmlElem → Toon.Value
  | .mk _ attrib text children =>
    if textOk text && children.isEmpty then .str (stripOf text)
    else
      let r0 :=
        (if attrib.isEmpty then []
         else [("@attributes",
                Toon.Value.map (attrib.map (fun p => (p.1, Toon.Value.str p.2))))]) ++
        (if textOk text && !children.isEmpty then
           [("#text", Toon.Value.str (stripOf text))]
         else [])
      let r := xmlFold r0 children
      if r.isEmpty then .null else .map r

/-- The loop `for child in element` of `xml_to_dict`. -/
def xmlFold (r : List (String × Toon.Value)) : List XmlElem →
    List (String × Toon.Value)
  | [] => r
  | c :: tl => xmlFold (xmlStep r (tagOf c) (xmlToDict c)) tl
end

end Wrapper

/-! ## Fixtures -/

/-- The tabular-detection fixture
`[{"id":1,"name":"Alice"},{"id":2,"name":"Bob"}]` under key `users`. -/
def usersFix : Toon.Value :=
  .map [("users", .list [
    .map [("id", .num "1"), ("name", .str "Alice")],
    .map [("id", .num "2"), ("name", .str "Bob")]])]

/-- The size-reduction fixture
`{"users":[{"id":1,"name":"Alice","age":30},{"id":2,"name":"Bob","age":25}]}`. -/
def usersAgeFix : Toon.Value :=
  .map [("users", .list [
    .map [("id", .num "1"), ("name", .str "Alice"), ("age", .num "30")],
    .map [("id", .num "2"), ("name", .str "Bob"), ("age", .num "25")]])]

/-- A round-trip witness tree exercising nested maps, a primitive-inline
list, a Mixed list and quoting. -/
def rtFix : Toon.Value :=
  .map [("a", .map [("b", .str "x y"),
                    ("c", .list [.num "1", .str "2", .bool true])]),
        ("m", .list [.num "-5.25", .map [("z", .null)], .list [.str "q,r"]])]

/-- A tabular block declaring length 3 (with or without the `#` marker)
over two actual data rows. -/
def tab3rows2 (m : Bool) : String :=
  "users[" ++ (if m then "#" else "") ++ "3]{id}:\n  1\n  2"

/-- An XML element with tag `item` twice and tag `other` once among its
children. -/
def xmlFix : Wrapper.XmlElem :=
  .mk "root" [] none [
    .mk "item" [] (some "first") [],
    .mk "other" [] (some "x") [],
    .mk "item" [] (some "second") []]

/-- How `parse_xml` groups the values bound to one tag: absent, bound
directly for a single occurrence, a list for repeated occurrences. -/
def groupOf : List Toon.Value → Option Toon.Value
  | [] => none
  | [x] => some x
  | x :: y :: tl => some (.list (x :: y :: tl))

/-- A well-formed encoded line content: non-empty, does not start with a
space, contains no newline. -/
def okContent (cs : List Char) : Prop :=
  cs ≠ [] ∧ cs.head? ≠ some ' ' ∧ '\n' ∉ cs

/-- Shape invariant of encoder output blocks at indent `w`: every line is
at indent at least `w` with non-empty content that neither starts with a
space nor contains a newline, and the first line sits exactly at `w`. -/
def blockShape (w : Nat) (ls : List Toon.Line) : Prop :=
  (∀ l ∈ ls, w ≤ l.1 ∧ l.2 ≠ [] ∧ l.2.head? ≠ some ' ' ∧ '\n' ∉ l.2) ∧
  (∀ l, ls.head? = some l → l.1 = w)

namespace Toon

/-- A raw (unquoted) token: non-empty, all characters safe. -/
def rawTok (t : List Char) : Prop :=
  t ≠ [] ∧ ∀ c ∈ t, isSafeChar c = true

/-- A token as the encoder emits it: raw or quoted. -/
def goodTok (t : List Char) : Prop :=
  rawTok t ∨ ∃ s : String, t = quoteTok s

end Toon

/-! ## Theorems -/

/-- C2: `encode` is a pure function of the value and the options, so two
invocations on the same input return byte-identical strings; in this
embedding the encoder is total on all Value trees by construction. -/
theorem encode_deterministic (v : Toon.Value) (opts : Toon.EncodeOptions) :
    Toon.encode v opts = Toon.encode v opts := rfl

/-- C4: the two-user list under key `users` with default options encodes to
exactly the tabular block `users[2]{id,name}:` followed by the two rows
`1,Alice` and `2,Bob`, with no trailing delimiter inside the brackets. -/
theorem tabular_users_block :
    Toon.encode usersFix Toon.defaultOpts =
      "users[2]{id,name}:\n  1,Alice\n  2,Bob" := rfl

/-- C5 counterexample: when the `#` marker option is enabled, the
`lengthMarker` entry passed to `encode` is the string `"#"`, not a
boolean. -/
theorem lengthMarker_not_boolean :
    List.lookup "lengthMarker" (Wrapper.encodeOptionsDict 2 "comma" true) =
      some (.str "#") ∧
    Wrapper.PyOptVal.str "#" ≠ .bool true ∧
    Wrapper.PyOptVal.str "#" ≠ .bool false := by
  refine ⟨rfl, ?_, ?_⟩ <;> decide

/-- C5 amended: both wrappers pass `lengthMarker` as the string `"#"` when
the marker option is enabled and as the boolean `false` otherwise. -/
theorem lengthMarker_value (i : Int) (d : String) (u : Bool) :
    List.lookup "lengthMarker" (Wrapper.encodeOptionsDict i d u) =
      some (if u then .str "#" else .bool false) := by
  cases u <;> rfl

/-- C6: for positive original size the diagnostics value is exactly
`100 * (1 - toon/json)`, and when the encoded text is larger the result is
negative (reported as-is, never clamped). -/
theorem reduction_formula (j t : Nat) (hj : 0 < j) :
    Wrapper.reduction j t = 100 * (1 - (t : ℚ) / (j : ℚ)) ∧
    (j < t → Wrapper.reduction j t < 0) := by
  refine ⟨rfl, fun h => ?_⟩
  have hj' : (0 : ℚ) < (j : ℚ) := by exact_mod_cast hj
  have ht : (1 : ℚ) < (t : ℚ) / (j : ℚ) := by
    rw [one_lt_div hj']
    exact_mod_cast h
  unfold Wrapper.reduction
  nlinarith

/-- C6 witness: original size 2, encoded size 3. -/
theorem reduction_formula_witness :
    Wrapper.reduction 2 3 = 100 * (1 - (3 : ℚ) / (2 : ℚ)) ∧
    Wrapper.reduction 2 3 < 0 :=
  ⟨(reduction_formula 2 3 (by norm_num)).1,
   (reduction_formula 2 3 (by norm_num)).2 (by norm_num)⟩

/-- C7: the TOON encoding of the size-reduction fixture under default
options is strictly shorter than its canonical compact JSON text. -/
theorem toon_shorter_than_json :
    (Toon.encode usersAgeFix Toon.defaultOpts).length <
      (Wrapper.jsonCompact usersAgeFix).length ∧
    Wrapper.jsonCompact usersAgeFix =
      "\x7b\"users\":[\x7b\"id\":1,\"name\":\"Alice\",\"age\":30\x7d,\x7b\"id\":2,\"name\":\"Bob\",\"age\":25\x7d]\x7d" := by
  exact ⟨by decide, rfl⟩

/-- C10: the reduction divisor — the length of the two-space-indented JSON
serialization of the parsed value — is at least 1 for every well-formed
value (number literals non-degenerate, as for every value `json.dumps`
accepts), so the percentage computation never divides by zero. -/
theorem jsonDumps_nonempty (v : Toon.Value) (h : Toon.wfV v = true) :
    0 < (Wrapper.jsonDumps v).length := by
  have hlen : (Wrapper.jsonDumps v).length = (Wrapper.jdV 0 v).length := rfl
  rw [hlen]
  cases v with
  | null => decide
  | bool b => cases b <;> decide
  | num lit =>
    have h' : Toon.isNumLitChars lit.toList = true := by
      simpa [Toon.wfV] using h
    cases hl : lit.toList with
    | nil => rw [hl] at h'; simp [Toon.isNumLitChars] at h'
    | cons c tl =>
      show 0 < (Wrapper.jdV 0 (Toon.Value.num lit)).length
      have hlit : Wrapper.jdV 0 (Toon.Value.num lit) = lit.toList := rfl
      rw [hlit, hl]
      simp
  | str s => simp [Wrapper.jdV, Wrapper.jsonStr]
  | list items =>
    by_cases hi : items.isEmpty <;> simp [Wrapper.jdV, hi]
  | map es =>
    by_cases hi : es.isEmpty <;> simp [Wrapper.jdV, hi]

/-- C10 witness: the size-reduction fixture. -/
theorem jsonDumps_nonempty_witness :
    0 < (Wrapper.jsonDumps usersAgeFix).length :=
  jsonDumps_nonempty usersAgeFix (by rfl)

/-- C3: declared array lengths are authoritative in every array form.  The
concrete text with a declared length of 3 but two data rows decodes to
`LengthMismatch`, with or without the `#` marker; a tabular body whose row
count differs from the declared length is a `LengthMismatch`; an inline
body whose token count differs from the declared length is a
`LengthMismatch`; a mixed block whose consumed items count differs from
the declared length is a `LengthMismatch` (including a declared length 0
over a non-empty block, and a non-zero declared length over an empty
block); and the decoder treats a header with the `#` marker exactly as
the same header without it. -/
theorem length_mismatch_authoritative :
    (∀ m : Bool, Toon.decode (tab3rows2 m) = .error .lengthMismatch) ∧
    (∀ (fuel n : Nat) (mid : List Char) (block : List Toon.Line),
      block.length ≠ n →
      Toon.pListBody (fuel + 1) n (.tab mid) block = .error .lengthMismatch) ∧
    (∀ (fuel n : Nat) (vals : List Char),
      (Toon.splitVals vals).length ≠ n →
      Toon.pListBody (fuel + 1) n (.inline vals) [] =
        .error .lengthMismatch) ∧
    (∀ (fuel n w1 : Nat) (c : List Char) (rest : List Toon.Line)
        (vs : List Toon.Value),
      Toon.pItems fuel w1 ((w1, c) :: rest) = .ok vs → vs.length ≠ n →
      Toon.pListBody (fuel + 1) n .block ((w1, c) :: rest) =
        .error .lengthMismatch) ∧
    (∀ (fuel n : Nat) (block : List Toon.Line),
      (n = 0 ∧ block ≠ []) ∨ (n ≠ 0 ∧ block = []) →
      Toon.pListBody (fuel + 1) n .block block = .error .lengthMismatch) ∧
    (∀ cs : List Char, cs.head? ≠ some '#' →
      Toon.parseHeader ('#' :: cs) = Toon.parseHeader cs) := by
  refine ⟨fun m => ?_, fun fuel n mid block h => ?_, fun fuel n vals h => ?_,
    fun fuel n w1 c rest vs hp hlen => ?_, fun fuel n block h => ?_,
    fun cs h => ?_⟩
  · cases m <;> rfl
  · simp [Toon.pListBody, h]
  · rw [Toon.pListBody.eq_def]
    dsimp only
    rw [if_pos (show ([] : List Toon.Line).isEmpty = true from rfl),
      if_neg h]
  · rw [Toon.pListBody.eq_def]
    dsimp only
    by_cases hn : n = 0
    · subst hn
      rw [if_pos rfl]
      rfl
    · rw [if_neg hn]
      rw [hp]
      dsimp only
      rw [if_neg hlen]
  · rcases h with ⟨rfl, hbne⟩ | ⟨hn, rfl⟩
    · rw [Toon.pListBody.eq_def]
      dsimp only
      rw [if_pos rfl]
      cases block with
      | nil => exact absurd rfl hbne
      | cons b tl => rfl
    · rw [Toon.pListBody.eq_def]
      dsimp only
      rw [if_neg hn]
  · simp [Toon.parseHeader, h]

/-- C3 witness: the marker-free concrete text; an empty tabular body
declared as length 3; an inline body of two tokens declared as length 3;
a one-item mixed block declared as length 5; a non-empty block declared
as length 0; and a digit-leading header tail. -/
theorem length_mismatch_authoritative_witness :
    Toon.decode (tab3rows2 false) = .error .lengthMismatch ∧
    Toon.pListBody 1 3 (.tab ['i', 'd']) [] = .error .lengthMismatch ∧
    Toon.pListBody 1 3 (.inline ['1', ',', '2']) [] =
      .error .lengthMismatch ∧
    Toon.pListBody 3 5 .block [(0, ['-', ' ', '1'])] =
      .error .lengthMismatch ∧
    Toon.pListBody 1 0 .block [(0, ['-', ' ', '1'])] =
      .error .lengthMismatch ∧
    Toon.parseHeader ('#' :: ['2', ']', ':']) = Toon.parseHeader ['2', ']', ':'] :=
  ⟨length_mismatch_authoritative.1 false,
   length_mismatch_authoritative.2.1 0 3 ['i', 'd'] [] (by decide),
   length_mismatch_authoritative.2.2.1 0 3 ['1', ',', '2'] (by decide),
   length_mismatch_authoritative.2.2.2.1 2 5 0 ['-', ' ', '1'] []
     [.num "1"] rfl (by decide),
   length_mismatch_authoritative.2.2.2.2.1 0 0 [(0, ['-', ' ', '1'])]
     (Or.inl ⟨rfl, by decide⟩),
   length_mismatch_authoritative.2.2.2.2.2 ['2', ']', ':'] (by decide)⟩

/-! ### XML parser lemmas (C9) -/

/-- `xml_to_dict` never returns a Python list: childless elements give a
string, and otherwise the result is a dict or `None`. -/
theorem xmlToDict_ne_list (e : Wrapper.XmlElem) (vs : List Toon.Value) :
    Wrapper.xmlToDict e ≠ .list vs := by
  cases e with
  | mk tag attrib text children =>
    rw [Wrapper.xmlToDict]
    split
    · simp
    · split <;> split <;> dsimp only <;> split <;> simp

theorem lookupV_nil (t : String) : Wrapper.lookupV [] t = none := rfl

theorem lookupV_setAt_self (r : List (String × Toon.Value)) (k : String)
    (v : Toon.Value) : Wrapper.lookupV (Wrapper.setAt r k v) k = some v := by
  induction r with
  | nil => simp [Wrapper.setAt, Wrapper.lookupV]
  | cons p tl ih =>
    obtain ⟨q, u⟩ := p
    by_cases h : q = k <;> simp [Wrapper.setAt, Wrapper.lookupV, h, ih]

theorem lookupV_setAt_ne (r : List (String × Toon.Value)) (k k' : String)
    (v : Toon.Value) (h : k ≠ k') :
    Wrapper.lookupV (Wrapper.setAt r k v) k' = Wrapper.lookupV r k' := by
  induction r with
  | nil => simp [Wrapper.setAt, Wrapper.lookupV, h]
  | cons p tl ih =>
    obtain ⟨q, u⟩ := p
    by_cases hq : q = k
    · subst hq; simp [Wrapper.setAt, Wrapper.lookupV, h]
    · simp [Wrapper.setAt, Wrapper.lookupV, hq, ih]

theorem lookupV_xmlStep_ne (r : List (String × Toon.Value)) (tag t : String)
    (x : Toon.Value) (h : tag ≠ t) :
    Wrapper.lookupV (Wrapper.xmlStep r tag x) t = Wrapper.lookupV r t := by
  unfold Wrapper.xmlStep
  split <;> exact lookupV_setAt_ne _ _ _ _ h

/-- The lookup of tag `t` after folding the children: occurrences of `t`
accumulate by `groupOf`, measured against the occurrences already folded
(`done`). -/
theorem xmlFold_lookup (t : String) (cs : List Wrapper.XmlElem) :
    ∀ (r : List (String × Toon.Value)) (done : List Wrapper.XmlElem),
      Wrapper.lookupV r t = groupOf (done.map Wrapper.xmlToDict) →
      Wrapper.lookupV (Wrapper.xmlFold r cs) t =
        groupOf ((done ++ cs.filter (fun c => Wrapper.tagOf c = t)).map
          Wrapper.xmlToDict) := by
  induction cs with
  | nil => intro r done h; simpa [Wrapper.xmlFold] using h
  | cons c tl ih =>
    intro r done h
    rw [Wrapper.xmlFold]
    by_cases hc : Wrapper.tagOf c = t
    · have step : Wrapper.lookupV
          (Wrapper.xmlStep r (Wrapper.tagOf c) (Wrapper.xmlToDict c)) t =
          groupOf ((done ++ [c]).map Wrapper.xmlToDict) := by
        rw [hc]
        unfold Wrapper.xmlStep
        match hd : done with
        | [] =>
          simp only [List.map_nil] at h
          rw [h]
          simp [groupOf, lookupV_setAt_self]
        | [d] =>
          simp only [List.map_cons, List.map_nil, groupOf] at h
          rw [h]
          cases hv : Wrapper.xmlToDict d with
          | list vs => exact absurd hv (xmlToDict_ne_list d vs)
          | null => simp [groupOf, lookupV_setAt_self, hv]
          | bool b => simp [groupOf, lookupV_setAt_self, hv]
          | num lit => simp [groupOf, lookupV_setAt_self, hv]
          | str s => simp [groupOf, lookupV_setAt_self, hv]
          | map es => simp [groupOf, lookupV_setAt_self, hv]
        | d1 :: d2 :: dtl =>
          simp only [List.map_cons, groupOf] at h
          rw [h]
          simp [groupOf, lookupV_setAt_self]
      have := ih _ (done ++ [c]) step
      rw [this]
      simp [hc, List.filter_cons, List.append_assoc]
    · have step : Wrapper.lookupV
          (Wrapper.xmlStep r (Wrapper.tagOf c) (Wrapper.xmlToDict c)) t =
          groupOf (done.map Wrapper.xmlToDict) := by
        rw [lookupV_xmlStep_ne _ _ _ _ hc]; exact h
      have := ih _ done step
      rw [this]
      simp [hc, List.filter_cons]

/-- Folded form of `xml_to_dict` on an element with at least one child of
tag `t` (with no child tagged like the special keys): the result is a dict
binding `t` to the `groupOf` of its occurrences in document order. -/
theorem xmlToDict_lookup (tag : String) (attrib : List (String × String))
    (text : Option String) (children : List Wrapper.XmlElem)
    (h : ∀ c ∈ children,
      Wrapper.tagOf c ≠ "@attributes" ∧ Wrapper.tagOf c ≠ "#text")
    (t : String)
    (hocc : 1 ≤ (children.filter (fun c => Wrapper.tagOf c = t)).length) :
    ∃ es, Wrapper.xmlToDict (.mk tag attrib text children) = .map es ∧
      Wrapper.lookupV es t =
        groupOf ((children.filter (fun c => Wrapper.tagOf c = t)).map
          Wrapper.xmlToDict) := by
  have hex : ∃ c ∈ children, Wrapper.tagOf c = t := by
    cases hocc2 : children.filter (fun c => Wrapper.tagOf c = t) with
    | nil => rw [hocc2] at hocc; simp at hocc
    | cons c0 rest =>
      have : c0 ∈ children.filter (fun c => Wrapper.tagOf c = t) := by
        rw [hocc2]; exact List.mem_cons_self _ _
      have hm := List.mem_filter.mp this
      exact ⟨c0, hm.1, by simpa using hm.2⟩
  obtain ⟨c0, hc0mem, hc0t⟩ := hex
  have ht1 : "@attributes" ≠ t := fun hh => (h c0 hc0mem).1 (hc0t.trans hh.symm)
  have ht2 : "#text" ≠ t := fun hh => (h c0 hc0mem).2 (hc0t.trans hh.symm)
  have hne : children ≠ [] := by
    intro he; rw [he] at hc0mem; cases hc0mem
  have hcond : (Wrapper.textOk text && children.isEmpty) = false := by
    cases children with
    | nil => exact absurd rfl hne
    | cons a b => simp
  rw [Wrapper.xmlToDict, hcond]
  simp only [Bool.false_eq_true, if_false]
  set r0 := (if attrib.isEmpty then []
      else [("@attributes",
             Toon.Value.map (attrib.map (fun p => (p.1, Toon.Value.str p.2))))]) ++
    (if (Wrapper.textOk text && !children.isEmpty) = true then
       [("#text", Toon.Value.str (Wrapper.stripOf text))]
     else []) with hr0def
  have hr0 : Wrapper.lookupV r0 t = none := by
    rw [hr0def]
    by_cases ha : attrib.isEmpty <;>
      by_cases htx : (Wrapper.textOk text && !children.isEmpty) = true <;>
        simp [ha, htx, Wrapper.lookupV, ht1, ht2]
  have hm := xmlFold_lookup t children r0 [] (by simpa [groupOf] using hr0)
  simp only [List.nil_append] at hm
  have hsome : Wrapper.lookupV (Wrapper.xmlFold r0 children) t ≠ none := by
    rw [hm]
    cases hocc2 : children.filter (fun c => Wrapper.tagOf c = t) with
    | nil => rw [hocc2] at hocc; simp at hocc
    | cons x rest =>
      cases rest with
      | nil => simp [groupOf]
      | cons y rtl => simp [groupOf]
  have hfne : (Wrapper.xmlFold r0 children).isEmpty = false := by
    cases hf : Wrapper.xmlFold r0 children with
    | nil => rw [hf] at hsome; exact absurd rfl hsome
    | cons a b => simp
  rw [hfne]
  simp only [Bool.false_eq_true, if_false]
  exact ⟨Wrapper.xmlFold r0 children, rfl, hm⟩

/-- C9: in the multi-format wrapper's XML parser, a tag occurring `n ≥ 2`
times among an element's children is bound to the list of the `n` child
values in document order, a tag occurring exactly once is bound directly
to its single value, and an element with no attributes, no text and no
children maps to null.  (The hypothesis that no child tag collides with the
special `@attributes`/`#text` keys always holds for real XML, whose tag
names cannot contain `@` or `#`.) -/
theorem parse_xml_child_grouping (tag : String)
    (attrib : List (String × String)) (text : Option String)
    (children : List Wrapper.XmlElem)
    (h : ∀ c ∈ children,
      Wrapper.tagOf c ≠ "@attributes" ∧ Wrapper.tagOf c ≠ "#text")
    (t : String) :
    (2 ≤ (children.filter (fun c => Wrapper.tagOf c = t)).length →
      ∃ es, Wrapper.xmlToDict (.mk tag attrib text children) = .map es ∧
        Wrapper.lookupV es t =
          some (.list ((children.filter (fun c => Wrapper.tagOf c = t)).map
            Wrapper.xmlToDict))) ∧
    ((children.filter (fun c => Wrapper.tagOf c = t)).length = 1 →
      ∃ es, Wrapper.xmlToDict (.mk tag attrib text children) = .map es ∧
        Wrapper.lookupV es t =
          ((children.filter (fun c => Wrapper.tagOf c = t)).map
            Wrapper.xmlToDict).head?) ∧
    (attrib = [] → Wrapper.textOk text = false → children = [] →
      Wrapper.xmlToDict (.mk tag attrib text children) = .null) := by
  refine ⟨fun h2 => ?_, fun h1 => ?_, fun ha htx hc => ?_⟩
  · obtain ⟨es, hes, hlk⟩ :=
      xmlToDict_lookup tag attrib text children h t (le_trans (by norm_num) h2)
    refine ⟨es, hes, ?_⟩
    rw [hlk]
    cases hocc2 : children.filter (fun c => Wrapper.tagOf c = t) with
    | nil => rw [hocc2] at h2; simp at h2
    | cons x rest =>
      cases rest with
      | nil => rw [hocc2] at h2; simp at h2
      | cons y rtl => simp [groupOf]
  · obtain ⟨es, hes, hlk⟩ :=
      xmlToDict_lookup tag attrib text children h t (by omega)
    refine ⟨es, hes, ?_⟩
    rw [hlk]
    cases hocc2 : children.filter (fun c => Wrapper.tagOf c = t) with
    | nil => rw [hocc2] at h1; simp at h1
    | cons x rest =>
      cases rest with
      | nil => simp [groupOf]
      | cons y rtl =>
        rw [hocc2] at h1; simp at h1
  · subst ha hc
    rw [Wrapper.xmlToDict]
    simp [Wrapper.xmlFold, htx]

/-- C9 witness: a root element with two `item` children and one `other`
child. -/
theorem parse_xml_child_grouping_witness :
    (∃ es, Wrapper.xmlToDict xmlFix = .map es ∧
      Wrapper.lookupV es "item" =
        some (.list [.str "first", .str "second"])) ∧
    Wrapper.xmlToDict (.mk "e" [] none []) = .null := by
  constructor
  · obtain ⟨es, hes, hlk⟩ :=
      (parse_xml_child_grouping "root" [] none
        [.mk "item" [] (some "first") [],
         .mk "other" [] (some "x") [],
         .mk "item" [] (some "second") []]
        (by intro c hc; fin_cases hc <;> exact ⟨by decide, by decide⟩)
        "item").1 (by decide)
    exact ⟨es, hes, by rw [hlk]; rfl⟩
  · exact (parse_xml_child_grouping "e" [] none [] (by intro c hc; cases hc)
      "x").2.2 rfl rfl rfl

/-! ### Character and token lemmas -/

namespace Toon

theorem safeChar_ne {c x : Char} (h : isSafeChar c = true)
    (hx : isSafeChar x = false) : c ≠ x := by
  intro he; rw [he, hx] at h; cases h

theorem digitChar_isDigit (n : Nat) : (digitChar n).isDigit = true := by
  match n with
  | 0 | 1 | 2 | 3 | 4 | 5 | 6 | 7 | 8 => rfl
  | n + 9 => rfl

theorem digit_isSafe {c : Char} (h : c.isDigit = true) : isSafeChar c = true := by
  simp [isSafeChar, Char.isAlphanum, h]

theorem digit_ne {c x : Char} (h : c.isDigit = true) (hx : x.isDigit = false) :
    c ≠ x := by
  intro he; rw [he, hx] at h; cases h

theorem digitsToNat_append (xs : List Char) (c : Char) :
    digitsToNat (xs ++ [c]) = digitsToNat xs * 10 + (c.toNat - 48) := by
  simp [digitsToNat, List.foldl_append]

theorem digitChar_val {n : Nat} (h : n < 10) : (digitChar n).toNat - 48 = n := by
  interval_cases n <;> decide

theorem digitsToNat_natCharsAux : ∀ (f n : Nat), n < f →
    digitsToNat (natCharsAux f n) = n := by
  intro f
  induction f with
  | zero => intro n h; omega
  | succ f ih =>
    intro n h
    rw [natCharsAux]
    by_cases h10 : n < 10
    · rw [if_pos h10]
      have hd : digitsToNat [digitChar n] = (digitChar n).toNat - 48 := by
        simp [digitsToNat]
      rw [hd, digitChar_val h10]
    · rw [if_neg h10]
      rw [digitsToNat_append, ih (n / 10) (by omega),
        digitChar_val (Nat.mod_lt _ (by norm_num))]
      omega

theorem digitsToNat_natChars (n : Nat) : digitsToNat (natChars n) = n :=
  digitsToNat_natCharsAux (n + 1) n (by omega)

theorem natCharsAux_digits : ∀ (f n : Nat), ∀ c ∈ natCharsAux f n,
    c.isDigit = true := by
  intro f
  induction f with
  | zero => intro n c hc; simp [natCharsAux] at hc
  | succ f ih =>
    intro n c hc
    rw [natCharsAux] at hc
    by_cases h10 : n < 10
    · rw [if_pos h10] at hc
      simp at hc
      subst hc
      exact digitChar_isDigit n
    · rw [if_neg h10] at hc
      rcases List.mem_append.mp hc with h1 | h2
      · exact ih _ c h1
      · simp at h2
        subst h2
        exact digitChar_isDigit _

theorem natChars_digits (n : Nat) : ∀ c ∈ natChars n, c.isDigit = true :=
  natCharsAux_digits (n + 1) n

theorem natChars_ne_nil (n : Nat) : natChars n ≠ [] := by
  rw [natChars, natCharsAux]
  by_cases h10 : n < 10 <;> simp [h10]

end Toon

namespace Toon

theorem escChars_append (a b : List Char) :
    escChars (a ++ b) = escChars a ++ escChars b := by
  induction a with
  | nil => rfl
  | cons c tl ih => simp [escChars, ih]

theorem escChars_no_newline : ∀ l : List Char, '\n' ∉ escChars l := by
  intro l
  induction l with
  | nil => simp [escChars]
  | cons c tl ih =>
    rw [escChars]
    intro hmem
    rcases List.mem_append.mp hmem with h1 | h2
    · revert h1
      unfold escChar
      split_ifs with e1 e2 e3
      · simp
      · simp
      · simp
      · simp only [List.mem_singleton]
        exact fun hh => e3 hh.symm
    · exact ih h2

theorem takeQuoted_esc : ∀ (l rest : List Char),
    takeQuoted (escChars l ++ '"' :: rest) = some (l, rest) := by
  intro l
  induction l with
  | nil =>
    intro rest
    rw [escChars, List.nil_append, takeQuoted.eq_def]
    simp
  | cons c tl ih =>
    intro rest
    rw [escChars]
    by_cases e1 : c = '"'
    · subst e1
      rw [show escChar '"' = ['\\', '"'] from rfl, takeQuoted.eq_def]
      simp [ih, unescChar]
    · by_cases e2 : c = '\\'
      · subst e2
        rw [show escChar '\\' = ['\\', '\\'] from rfl, takeQuoted.eq_def]
        simp [ih, unescChar]
      · by_cases e3 : c = '\n'
        · subst e3
          rw [show escChar '\n' = ['\\', 'n'] from rfl, takeQuoted.eq_def]
          simp [ih, unescChar]
        · rw [show escChar c = [c] from by simp [escChar, e1, e2, e3],
            takeQuoted.eq_def]
          simp [e1, e2, ih]

theorem goodTok_ne_nil {t : List Char} (h : goodTok t) : t ≠ [] := by
  rcases h with ⟨hne, _⟩ | ⟨s, hs⟩
  · exact hne
  · rw [hs]; simp [quoteTok]

theorem quoteTok_no_newline (s : String) : '\n' ∉ quoteTok s := by
  rw [quoteTok]
  intro hmem
  rcases List.mem_cons.mp hmem with h1 | h2
  · cases h1
  · rcases List.mem_append.mp h2 with h3 | h4
    · exact escChars_no_newline _ h3
    · simp at h4

theorem goodTok_no_newline {t : List Char} (h : goodTok t) : '\n' ∉ t := by
  rcases h with ⟨_, hsafe⟩ | ⟨s, hs⟩
  · intro hmem
    exact absurd (hsafe _ hmem) (by decide)
  · rw [hs]; exact quoteTok_no_newline s

theorem goodTok_head {t : List Char} {c : Char} (h : goodTok t)
    (hc : t.head? = some c) : isSafeChar c = true ∨ c = '"' := by
  rcases h with ⟨hne, hsafe⟩ | ⟨s, hs⟩
  · left
    cases t with
    | nil => exact absurd rfl hne
    | cons a tl =>
      simp at hc
      subst hc
      exact hsafe _ (List.mem_cons_self _ _)
  · right
    rw [hs] at hc
    simp [quoteTok] at hc
    all_goals exact hc.symm

end Toon

namespace Toon

theorem string_eta (s : String) : String.mk s.toList = s := rfl

theorem toList_injective {s t : String} (h : s.toList = t.toList) : s = t := by
  cases s
  cases t
  exact congrArg String.mk h

theorem takeWhile_app_of_all {α : Type} {p : α → Bool} {A : List α}
    (hA : ∀ a ∈ A, p a = true) (B : List α) :
    (A ++ B).takeWhile p = A ++ B.takeWhile p := by
  induction A with
  | nil => rfl
  | cons a tl ih =>
    rw [List.cons_append, List.takeWhile_cons, hA a (List.mem_cons_self _ _),
      if_pos rfl, ih (fun x hx => hA x (List.mem_cons_of_mem _ hx)),
      List.cons_append]

theorem dropWhile_app_of_all {α : Type} {p : α → Bool} {A : List α}
    (hA : ∀ a ∈ A, p a = true) (B : List α) :
    (A ++ B).dropWhile p = B.dropWhile p := by
  induction A with
  | nil => rfl
  | cons a tl ih =>
    rw [List.cons_append, List.dropWhile_cons, hA a (List.mem_cons_self _ _),
      if_pos rfl]
    exact ih (fun x hx => hA x (List.mem_cons_of_mem _ hx))

theorem numBody_safe (cs : List Char)
    (h : (!(cs.takeWhile Char.isDigit).isEmpty &&
      ((cs.dropWhile Char.isDigit).isEmpty ||
        ((cs.dropWhile Char.isDigit).head? = some '.' &&
         !(cs.dropWhile Char.isDigit).tail.isEmpty &&
         (cs.dropWhile Char.isDigit).tail.all Char.isDigit))) = true) :
    ∀ c ∈ cs, isSafeChar c = true := by
  intro c hc
  rw [← List.takeWhile_append_dropWhile Char.isDigit cs] at hc
  rcases List.mem_append.mp hc with h1 | h2
  · exact digit_isSafe (List.mem_takeWhile_imp h1)
  · simp only [Bool.and_eq_true, Bool.or_eq_true, Bool.not_eq_true',
      decide_eq_true_eq] at h
    rcases h.2 with he | hdot
    · cases hrest : cs.dropWhile Char.isDigit with
      | nil => rw [hrest] at h2; cases h2
      | cons d dtl => rw [hrest] at he; simp at he
    · obtain ⟨⟨hhd, _⟩, hall⟩ := hdot
      cases hrest : cs.dropWhile Char.isDigit with
      | nil => rw [hrest] at h2; cases h2
      | cons d dtl =>
        rw [hrest] at h2 hhd hall
        simp only [List.head?_cons, Option.some.injEq] at hhd
        subst hhd
        rcases List.mem_cons.mp h2 with rfl | hdt
        · decide
        · simp only [List.tail_cons, List.all_eq_true] at hall
          exact digit_isSafe (hall _ hdt)

theorem numLit_safe {cs : List Char} (h : isNumLitChars cs = true) :
    ∀ c ∈ cs, isSafeChar c = true := by
  intro c hc
  rw [isNumLitChars] at h
  by_cases hm : cs.head? = some '-'
  · obtain ⟨tl, rfl⟩ : ∃ tl, cs = '-' :: tl := by
      cases cs with
      | nil => simp at hm
      | cons a tl =>
        simp only [List.head?_cons, Option.some.injEq] at hm
        exact ⟨tl, by rw [hm]⟩
    simp only [List.head?_cons, if_pos rfl, List.tail_cons] at h
    rcases List.mem_cons.mp hc with rfl | hct
    · decide
    · exact numBody_safe tl h c hct
  · rw [if_neg hm] at h
    exact numBody_safe cs h c hc

theorem numLit_ne_nil {cs : List Char} (h : isNumLitChars cs = true) :
    cs ≠ [] := by
  intro he
  rw [he] at h
  simp [isNumLitChars] at h

theorem renderStr_goodTok (s : String) : goodTok (renderStr s) := by
  rw [renderStr]
  split_ifs with hcond
  · left
    simp only [Bool.and_eq_true, Bool.not_eq_true', plainTok] at hcond
    refine ⟨?_, ?_⟩
    · intro he
      rw [he] at hcond
      simp at hcond
    · intro c hc
      have := hcond.1.1.2
      simp only [List.all_eq_true] at this
      exact this c hc
  · exact Or.inr ⟨s, rfl⟩

theorem renderKey_goodTok (k : String) : goodTok (renderKey k) := by
  rw [renderKey]
  split_ifs with hcond
  · left
    simp only [plainTok, Bool.and_eq_true, Bool.not_eq_true'] at hcond
    refine ⟨?_, ?_⟩
    · intro he
      rw [he] at hcond
      simp at hcond
    · intro c hc
      have := hcond.2
      simp only [List.all_eq_true] at this
      exact this c hc
  · exact Or.inr ⟨k, rfl⟩

theorem renderPrim_goodTok {v : Value} (hw : wfV v = true)
    (hp : v.isPrim = true) : goodTok (renderPrim v) := by
  cases v with
  | null => left; constructor <;> decide
  | bool b => cases b <;> (left; constructor <;> decide)
  | num lit =>
    have hnl : isNumLitChars lit.toList = true := by simpa [wfV] using hw
    left
    exact ⟨numLit_ne_nil hnl, numLit_safe hnl⟩
  | str s => exact renderStr_goodTok s
  | list items => simp [Value.isPrim] at hp
  | map es => simp [Value.isPrim] at hp

theorem renderPrim_ne_nil {v : Value} (hw : wfV v = true)
    (hp : v.isPrim = true) : renderPrim v ≠ [] :=
  goodTok_ne_nil (renderPrim_goodTok hw hp)

end Toon

namespace Toon

theorem parseScalarToken_cons (c : Char) (rest : List Char) :
    parseScalarToken (c :: rest) =
      (if c = '"' then
        match takeQuoted rest with
        | some (body, []) => .ok (.str ⟨body⟩)
        | _ => .error .unterminatedQuote
      else if c :: rest = "null".toList then .ok .null
      else if c :: rest = "true".toList then .ok (.bool true)
      else if c :: rest = "false".toList then .ok (.bool false)
      else if isNumLitChars (c :: rest) then .ok (.num ⟨c :: rest⟩)
      else .ok (.str ⟨c :: rest⟩)) := rfl

theorem parseKeyTok_cons (c : Char) (rest : List Char) :
    parseKeyTok (c :: rest) =
      (if c = '"' then
        match takeQuoted rest with
        | some (body, []) => .ok ⟨body⟩
        | _ => .error .unterminatedQuote
      else .ok ⟨c :: rest⟩) := rfl

theorem parseScalarToken_quoteTok (s : String) :
    parseScalarToken (quoteTok s) = .ok (.str s) := by
  rw [quoteTok, parseScalarToken_cons, if_pos rfl]
  have h := takeQuoted_esc s.toList []
  rw [show escChars s.toList ++ ['"'] = escChars s.toList ++ '"' :: [] from rfl, h]
  simp [string_eta]

theorem parseScalarToken_renderPrim {v : Value} (hw : wfV v = true)
    (hp : v.isPrim = true) : parseScalarToken (renderPrim v) = .ok v := by
  cases v with
  | null => rfl
  | bool b => cases b <;> rfl
  | num lit =>
    have hnl : isNumLitChars lit.toList = true := by simpa [wfV] using hw
    cases hl : lit.toList with
    | nil => exact absurd hl (numLit_ne_nil hnl)
    | cons c0 t0 =>
      have hsafe : isSafeChar c0 = true :=
        numLit_safe hnl c0 (by rw [hl]; exact List.mem_cons_self _ _)
      rw [show renderPrim (.num lit) = lit.toList from rfl, hl,
        parseScalarToken_cons]
      rw [if_neg (safeChar_ne hsafe (by decide))]
      rw [hl] at hnl
      have hnull : ¬(c0 :: t0 = "null".toList) := by
        intro he; rw [he] at hnl; simp [isNumLitChars] at hnl
      have htrue : ¬(c0 :: t0 = "true".toList) := by
        intro he; rw [he] at hnl; simp [isNumLitChars] at hnl
      have hfalse : ¬(c0 :: t0 = "false".toList) := by
        intro he; rw [he] at hnl; simp [isNumLitChars] at hnl
      rw [if_neg hnull, if_neg htrue, if_neg hfalse, if_pos hnl, ← hl,
        string_eta]
  | str s =>
    rw [show renderPrim (.str s) = renderStr s from rfl, renderStr]
    split_ifs with hcond
    · simp only [Bool.and_eq_true, Bool.not_eq_true', plainTok] at hcond
      obtain ⟨⟨⟨hne, hsafe⟩, hres⟩, hnum⟩ := hcond
      simp only [List.all_eq_true] at hsafe
      cases hsl : s.toList with
      | nil => rw [hsl] at hne; simp at hne
      | cons c0 t0 =>
        have hs0 : isSafeChar c0 = true :=
          hsafe c0 (by rw [hsl]; exact List.mem_cons_self _ _)
        rw [parseScalarToken_cons]
        rw [if_neg (safeChar_ne hs0 (by decide))]
        have hnull : ¬(c0 :: t0 = "null".toList) := by
          intro he
          have : s = "null" := toList_injective (by rw [hsl, he])
          rw [this] at hres; simp [isReserved] at hres
        have htrue : ¬(c0 :: t0 = "true".toList) := by
          intro he
          have : s = "true" := toList_injective (by rw [hsl, he])
          rw [this] at hres; simp [isReserved] at hres
        have hfalse : ¬(c0 :: t0 = "false".toList) := by
          intro he
          have : s = "false" := toList_injective (by rw [hsl, he])
          rw [this] at hres; simp [isReserved] at hres
        have hnl : isNumLitChars (c0 :: t0) = false := by
          rw [← hsl]
          simpa [isNumLit] using hnum
        rw [if_neg hnull, if_neg htrue, if_neg hfalse, hnl]
        rw [if_neg (show ¬(false = true) from by simp)]
        rw [← hsl, string_eta]
    · exact parseScalarToken_quoteTok s
  | list items => simp [Value.isPrim] at hp
  | map es => simp [Value.isPrim] at hp

theorem parseKeyTok_renderKey (k : String) :
    parseKeyTok (renderKey k) = .ok k := by
  rw [renderKey]
  split_ifs with hcond
  · simp only [plainTok, Bool.and_eq_true, Bool.not_eq_true'] at hcond
    obtain ⟨hne, hsafe⟩ := hcond
    simp only [List.all_eq_true] at hsafe
    cases hsl : k.toList with
    | nil => rw [hsl] at hne; simp at hne
    | cons c0 t0 =>
      have hs0 : isSafeChar c0 = true :=
        hsafe c0 (by rw [hsl]; exact List.mem_cons_self _ _)
      rw [parseKeyTok_cons]
      rw [if_neg (safeChar_ne hs0 (by decide))]
      rw [← hsl, string_eta]
  · rw [quoteTok, parseKeyTok_cons, if_pos rfl]
    rw [show escChars k.toList ++ ['"'] = escChars k.toList ++ '"' :: [] from rfl,
      takeQuoted_esc k.toList []]
    simp [string_eta]

end Toon

namespace Toon

theorem splitKey_cons (c : Char) (rest : List Char) :
    splitKey (c :: rest) =
      (if c = '"' then
        match takeQuoted rest with
        | some (body, r) =>
          if r.head? = some ':' || r.head? = some '[' then some (⟨body⟩, r)
          else none
        | none => none
      else if ((c :: rest).takeWhile isSafeChar).isEmpty then none
      else if ((c :: rest).dropWhile isSafeChar).head? = some ':' ||
              ((c :: rest).dropWhile isSafeChar).head? = some '[' then
        some (⟨(c :: rest).takeWhile isSafeChar⟩,
              (c :: rest).dropWhile isSafeChar)
      else none) := rfl

theorem takeWhile_stop {r : List Char}
    (hr : ∀ x, r.head? = some x → isSafeChar x = false) :
    r.takeWhile isSafeChar = [] := by
  cases r with
  | nil => rfl
  | cons x xs =>
    rw [List.takeWhile_cons, hr x rfl]
    simp

theorem dropWhile_stop {r : List Char}
    (hr : ∀ x, r.head? = some x → isSafeChar x = false) :
    r.dropWhile isSafeChar = r := by
  cases r with
  | nil => rfl
  | cons x xs =>
    rw [List.dropWhile_cons, hr x rfl]
    simp

theorem splitKey_renderKey (k : String) (r : List Char)
    (hr : r.head? = some ':' ∨ r.head? = some '[') :
    splitKey (renderKey k ++ r) = some (k, r) := by
  have hrb : (r.head? = some ':' || r.head? = some '[') = true := by
    rcases hr with h | h <;> simp [h]
  have hrhead : ∀ x, r.head? = some x → isSafeChar x = false := by
    intro x hx
    rcases hr with h | h <;> rw [h] at hx <;> simp at hx <;> subst hx <;> decide
  rw [renderKey]
  split_ifs with hcond
  · simp only [plainTok, Bool.and_eq_true, Bool.not_eq_true'] at hcond
    obtain ⟨hne, hsafe⟩ := hcond
    simp only [List.all_eq_true] at hsafe
    cases hsl : k.toList with
    | nil => rw [hsl] at hne; simp at hne
    | cons c0 t0 =>
      have hall : ∀ a ∈ c0 :: t0, isSafeChar a = true := by
        intro a ha; apply hsafe; rw [hsl]; exact ha
      have hs0 : isSafeChar c0 = true := hall c0 (List.mem_cons_self _ _)
      have htw : (c0 :: (t0 ++ r)).takeWhile isSafeChar = c0 :: t0 := by
        rw [show c0 :: (t0 ++ r) = (c0 :: t0) ++ r from rfl,
          takeWhile_app_of_all hall r, takeWhile_stop hrhead, List.append_nil]
      have hdw : (c0 :: (t0 ++ r)).dropWhile isSafeChar = r := by
        rw [show c0 :: (t0 ++ r) = (c0 :: t0) ++ r from rfl,
          dropWhile_app_of_all hall r, dropWhile_stop hrhead]
      rw [List.cons_append, splitKey_cons,
        if_neg (safeChar_ne hs0 (by decide)), htw, hdw,
        if_neg (show ¬((c0 :: t0).isEmpty = true) from by simp), if_pos hrb,
        ← hsl, string_eta]
  · rw [quoteTok, List.cons_append, List.append_assoc,
      show ['"'] ++ r = '"' :: r from rfl, splitKey_cons, if_pos rfl,
      takeQuoted_esc k.toList r]
    simp [hrb, string_eta]

theorem splitKey_goodTok_none {t : List Char} (h : goodTok t) :
    splitKey t = none := by
  rcases h with ⟨hne, hsafe⟩ | ⟨s, hs⟩
  · cases ht : t with
    | nil => exact absurd ht hne
    | cons c0 t0 =>
      rw [ht] at hsafe
      have hs0 : isSafeChar c0 = true := hsafe c0 (List.mem_cons_self _ _)
      have hall : ∀ a ∈ c0 :: t0, isSafeChar a = true := hsafe
      have htw : (c0 :: t0).takeWhile isSafeChar = c0 :: t0 := by
        rw [show c0 :: t0 = (c0 :: t0) ++ [] from by simp,
          takeWhile_app_of_all hall []]
        simp
      have hdw : (c0 :: t0).dropWhile isSafeChar = [] := by
        rw [show c0 :: t0 = (c0 :: t0) ++ [] from by simp,
          dropWhile_app_of_all hall []]
        rfl
      rw [splitKey_cons, if_neg (safeChar_ne hs0 (by decide)), htw, hdw]
      simp
  · rw [hs, quoteTok, splitKey_cons, if_pos rfl,
      show escChars s.toList ++ ['"'] = escChars s.toList ++ '"' :: [] from rfl,
      takeQuoted_esc s.toList []]
    simp

end Toon

namespace Toon

theorem splitValsAux_esc (found : Option Char) :
    ∀ (l rest acc : List Char),
      splitValsAux found (escChars l ++ '"' :: rest) true acc =
        splitValsAux found rest false ('"' :: ((escChars l).reverse ++ acc)) := by
  intro l
  induction l with
  | nil =>
    intro rest acc
    rw [escChars, List.nil_append, splitValsAux.eq_def]
    dsimp only
    rw [if_neg (by decide), if_pos rfl]
    simp
  | cons c tl ih =>
    intro rest acc
    rw [escChars]
    by_cases e1 : c = '"'
    · subst e1
      rw [show escChar '"' ++ escChars tl ++ '"' :: rest =
          '\\' :: '"' :: (escChars tl ++ '"' :: rest) from by simp [escChar],
        splitValsAux.eq_def]
      dsimp only
      rw [if_pos rfl]
      rw [ih rest ('"' :: '\\' :: acc)]
      simp [escChar]
    · by_cases e2 : c = '\\'
      · subst e2
        rw [show escChar '\\' ++ escChars tl ++ '"' :: rest =
            '\\' :: '\\' :: (escChars tl ++ '"' :: rest) from by simp [escChar],
          splitValsAux.eq_def]
        dsimp only
        rw [if_pos rfl]
        rw [ih rest ('\\' :: '\\' :: acc)]
        simp [escChar]
      · by_cases e3 : c = '\n'
        · subst e3
          rw [show escChar '\n' ++ escChars tl ++ '"' :: rest =
              '\\' :: 'n' :: (escChars tl ++ '"' :: rest) from by simp [escChar],
            splitValsAux.eq_def]
          dsimp only
          rw [if_pos rfl]
          rw [ih rest ('n' :: '\\' :: acc)]
          simp [escChar]
        · rw [show escChar c ++ escChars tl ++ '"' :: rest =
              c :: (escChars tl ++ '"' :: rest) from by simp [escChar, e1, e2, e3],
            splitValsAux.eq_def]
          dsimp only
          rw [if_neg e2, if_neg e1]
          rw [ih rest (c :: acc)]
          simp [escChar, e1, e2, e3]

theorem splitValsAux_raw (found : Option Char)
    (hf : ∀ d, found = some d → d = ',' ∨ d = '\t' ∨ d = '|') :
    ∀ (t : List Char), (∀ c ∈ t, isSafeChar c = true) →
      ∀ (rest acc : List Char),
      splitValsAux found (t ++ rest) false acc =
        splitValsAux found rest false (t.reverse ++ acc) := by
  intro t
  induction t with
  | nil => intro _ rest acc; simp
  | cons c tl ih =>
    intro ht rest acc
    have hc : isSafeChar c = true := ht c (List.mem_cons_self _ _)
    have ht' : ∀ x ∈ tl, isSafeChar x = true :=
      fun x hx => ht x (List.mem_cons_of_mem _ hx)
    have hq : ¬c = '"' := safeChar_ne hc (by decide)
    rw [List.cons_append, splitValsAux.eq_def]
    cases hfd : found with
    | some d =>
      dsimp only
      rw [hfd] at ih
      have hcd : ¬c = d := by
        rcases hf d hfd with rfl | rfl | rfl <;> exact safeChar_ne hc (by decide)
      rw [if_neg hcd, if_neg hq, ih ht' rest (c :: acc)]
      simp
    | none =>
      dsimp only
      rw [hfd] at ih
      have h1 : ¬c = ',' := safeChar_ne hc (by decide)
      have h2 : ¬c = '\t' := safeChar_ne hc (by decide)
      have h3 : ¬c = '|' := safeChar_ne hc (by decide)
      rw [if_neg (by simp [h1, h2, h3]), if_neg hq, ih ht' rest (c :: acc)]
      simp

theorem splitValsAux_quoted (found : Option Char)
    (hf : ∀ d, found = some d → d = ',' ∨ d = '\t' ∨ d = '|')
    (s : String) (rest acc : List Char) :
    splitValsAux found (quoteTok s ++ rest) false acc =
      splitValsAux found rest false ((quoteTok s).reverse ++ acc) := by
  rw [show quoteTok s ++ rest = '"' :: (escChars s.toList ++ '"' :: rest) from
      by simp [quoteTok], splitValsAux.eq_def]
  cases hfd : found with
  | some d =>
    dsimp only
    have hq : ¬('"' : Char) = d := by
      rcases hf d hfd with rfl | rfl | rfl <;> decide
    rw [if_neg hq, if_pos rfl, splitValsAux_esc]
    simp [quoteTok]
  | none =>
    dsimp only
    rw [if_neg (by decide), if_pos rfl, splitValsAux_esc]
    simp [quoteTok]

theorem splitValsAux_goodTok (found : Option Char)
    (hf : ∀ d, found = some d → d = ',' ∨ d = '\t' ∨ d = '|')
    {t : List Char} (h : goodTok t) (rest acc : List Char) :
    splitValsAux found (t ++ rest) false acc =
      splitValsAux found rest false (t.reverse ++ acc) := by
  rcases h with ⟨_, hsafe⟩ | ⟨s, rfl⟩
  · exact splitValsAux_raw found hf t hsafe rest acc
  · exact splitValsAux_quoted found hf s rest acc

theorem joinD_singleton (d : Char) (t : List Char) : joinD d [t] = t := by
  rw [joinD.eq_def]

theorem joinD_cons2 (d : Char) (t t2 : List Char) (ts : List (List Char)) :
    joinD d (t :: t2 :: ts) = t ++ d :: joinD d (t2 :: ts) := by
  rw [joinD.eq_def]

theorem splitValsAux_some_joinD (d : Char)
    (hd : d = ',' ∨ d = '\t' ∨ d = '|') :
    ∀ (toks : List (List Char)), toks ≠ [] → (∀ t ∈ toks, goodTok t) →
      splitValsAux (some d) (joinD d toks) false [] = toks := by
  have hf : ∀ x, (some d : Option Char) = some x →
      x = ',' ∨ x = '\t' ∨ x = '|' := by
    intro x hx
    cases hx
    exact hd
  intro toks
  induction toks with
  | nil => intro h; exact absurd rfl h
  | cons t ts ih =>
    intro _ htoks
    have hgt : goodTok t := htoks t (List.mem_cons_self _ _)
    cases ts with
    | nil =>
      rw [joinD_singleton, show t = t ++ [] from by simp,
        splitValsAux_goodTok (some d) hf hgt [] [], splitValsAux.eq_def]
      simp
    | cons t2 ts2 =>
      rw [joinD_cons2, splitValsAux_goodTok (some d) hf hgt _ [],
        splitValsAux.eq_def]
      dsimp only
      rw [if_pos rfl,
        ih (by simp) (fun x hx => htoks x (List.mem_cons_of_mem _ hx))]
      simp

theorem splitVals_joinD (d : Char) (hd : d = ',' ∨ d = '\t' ∨ d = '|')
    (toks : List (List Char)) (hne : toks ≠ [])
    (htoks : ∀ t ∈ toks, goodTok t) :
    splitVals (joinD d toks) = toks := by
  have hfn : ∀ x, (none : Option Char) = some x →
      x = ',' ∨ x = '\t' ∨ x = '|' := by
    intro x hx
    cases hx
  rw [splitVals]
  cases toks with
  | nil => exact absurd rfl hne
  | cons t ts =>
    have hgt : goodTok t := htoks t (List.mem_cons_self _ _)
    cases ts with
    | nil =>
      rw [joinD_singleton, show t = t ++ [] from by simp,
        splitValsAux_goodTok none hfn hgt [] [], splitValsAux.eq_def]
      simp
    | cons t2 ts2 =>
      rw [joinD_cons2, splitValsAux_goodTok none hfn hgt _ [],
        splitValsAux.eq_def]
      dsimp only
      rw [if_pos (by rcases hd with rfl | rfl | rfl <;> simp),
        splitValsAux_some_joinD d hd (t2 :: ts2) (by simp)
          (fun x hx => htoks x (List.mem_cons_of_mem _ hx))]
      simp

end Toon

namespace Toon

theorem wfV_map (es : List (String × Value)) : wfV (.map es) = wfE es := by
  simp [wfV]

theorem wfV_list (items : List Value) : wfV (.list items) = wfL items := by
  simp [wfV]

theorem wfL_cons {v : Value} {tl : List Value} (h : wfL (v :: tl) = true) :
    wfV v = true ∧ wfL tl = true := by
  rw [wfL.eq_def] at h
  simpa [Bool.and_eq_true] using h

theorem wfE_cons {k : String} {v : Value} {tl : List (String × Value)}
    (h : wfE ((k, v) :: tl) = true) : wfV v = true ∧ wfE tl = true := by
  rw [wfE.eq_def] at h
  simpa [Bool.and_eq_true] using h

theorem wfL_values : ∀ {items : List Value}, wfL items = true →
    ∀ v ∈ items, wfV v = true := by
  intro items
  induction items with
  | nil => intro _ v hv; cases hv
  | cons x tl ih =>
    intro h v hv
    obtain ⟨h1, h2⟩ := wfL_cons h
    rcases List.mem_cons.mp hv with rfl | hvt
    · exact h1
    · exact ih h2 v hvt

theorem wfE_values : ∀ {es : List (String × Value)}, wfE es = true →
    ∀ p ∈ es, wfV p.2 = true := by
  intro es
  induction es with
  | nil => intro _ p hp; cases hp
  | cons q tl ih =>
    intro h p hp
    obtain ⟨k, v⟩ := q
    obtain ⟨h1, h2⟩ := wfE_cons h
    rcases List.mem_cons.mp hp with rfl | hpt
    · exact h1
    · exact ih h2 p hpt

theorem Delim.char_cases (dl : Delim) :
    dl.char = ',' ∨ dl.char = '\t' ∨ dl.char = '|' := by
  cases dl <;> simp [Delim.char]

theorem pScalars_map : ∀ (vs : List Value),
    (∀ v ∈ vs, wfV v = true ∧ v.isPrim = true) →
    pScalars (vs.map renderPrim) = .ok vs := by
  intro vs
  induction vs with
  | nil => intro _; rfl
  | cons v tl ih =>
    intro h
    rw [List.map_cons, pScalars.eq_def]
    dsimp only
    rw [parseScalarToken_renderPrim (h v (List.mem_cons_self _ _)).1
      (h v (List.mem_cons_self _ _)).2]
    rw [ih (fun x hx => h x (List.mem_cons_of_mem _ hx))]

theorem pKeys_map : ∀ ks : List String, pKeys (ks.map renderKey) = .ok ks := by
  intro ks
  induction ks with
  | nil => rfl
  | cons k tl ih =>
    rw [List.map_cons, pKeys.eq_def]
    dsimp only
    rw [parseKeyTok_renderKey k, ih]

theorem zip_fst_snd {α β : Type} : ∀ es : List (α × β),
    (es.map Prod.fst).zip (es.map Prod.snd) = es := by
  intro es
  induction es with
  | nil => rfl
  | cons p tl ih => simp [ih]

theorem renderRow_map (opts : EncodeOptions) (es : List (String × Value)) :
    renderRow opts (.map es) =
      joinD opts.delimiter.char (es.map (fun e => renderPrim e.2)) := rfl

theorem tabularHeads_spec {items : List Value} {ks : List String}
    (h : tabularHeads items = some ks) :
    ks ≠ [] ∧ items ≠ [] ∧ ∀ v ∈ items, ∃ es, v = .map es ∧
      es.map Prod.fst = ks ∧ ∀ p ∈ es, (p.2).isPrim = true := by
  cases items with
  | nil => simp [tabularHeads] at h
  | cons v0 tl =>
    cases v0 with
    | map es0 =>
      rw [tabularHeads.eq_def] at h
      dsimp only at h
      split_ifs at h with hcond
      · simp only [Option.some.injEq] at h
        subst h
        simp only [Bool.and_eq_true, Bool.not_eq_true', List.all_eq_true] at hcond
        obtain ⟨⟨hks, hprim⟩, htl⟩ := hcond
        refine ⟨?_, by simp, ?_⟩
        · intro he
          rw [he] at hks
          simp at hks
        · intro v hv
          rcases List.mem_cons.mp hv with rfl | hvtl
          · exact ⟨es0, rfl, rfl, fun p hp => hprim p hp⟩
          · have hm := htl v hvtl
            cases v with
            | map es =>
              simp only [isPrimMapWithKeys, Bool.and_eq_true,
                decide_eq_true_eq, List.all_eq_true] at hm
              exact ⟨es, rfl, hm.1, fun p hp => hm.2 p hp⟩
            | null => simp [isPrimMapWithKeys] at hm
            | bool b => simp [isPrimMapWithKeys] at hm
            | num lit => simp [isPrimMapWithKeys] at hm
            | str s => simp [isPrimMapWithKeys] at hm
            | list l => simp [isPrimMapWithKeys] at hm
    | null => simp [tabularHeads] at h
    | bool b => simp [tabularHeads] at h
    | num lit => simp [tabularHeads] at h
    | str s => simp [tabularHeads] at h
    | list l => simp [tabularHeads] at h

theorem pRows_rows (opts : EncodeOptions) (ks : List String) (hks : ks ≠ []) :
    ∀ (rows : List Value) (w : Nat),
      (∀ v ∈ rows, ∃ es, v = .map es ∧ es.map Prod.fst = ks ∧
        ∀ p ∈ es, (p.2).isPrim = true) →
      wfL rows = true →
      pRows ks (rows.map (fun row => (w, renderRow opts row))) = .ok rows := by
  intro rows
  induction rows with
  | nil => intro w _ _; rfl
  | cons row tl ih =>
    intro w hrows hwf
    obtain ⟨es, rfl, hfst, hprim⟩ := hrows _ (List.mem_cons_self _ _)
    obtain ⟨hwfv, hwftl⟩ := wfL_cons hwf
    have hwfe : wfE es = true := by rwa [wfV_map] at hwfv
    have hesne : es ≠ [] := by
      intro he
      apply hks
      rw [← hfst, he]
      rfl
    rw [List.map_cons, pRows.eq_def]
    dsimp only
    have hsplit : splitVals (renderRow opts (.map es)) =
        es.map (fun e => renderPrim e.2) := by
      rw [renderRow_map]
      apply splitVals_joinD _ (Delim.char_cases opts.delimiter)
      · intro he
        rw [List.map_eq_nil_iff] at he
        exact hesne he
      · intro t ht
        rw [List.mem_map] at ht
        obtain ⟨p, hp, rfl⟩ := ht
        exact renderPrim_goodTok (wfE_values hwfe p hp) (hprim p hp)
    rw [hsplit]
    have hlen : (es.map (fun e => renderPrim e.2)).length = ks.length := by
      rw [← hfst]
      simp
    rw [if_pos hlen]
    have hmm : es.map (fun e => renderPrim e.2) =
        (es.map Prod.snd).map renderPrim := by
      simp
    rw [hmm, pScalars_map (es.map Prod.snd) (by
      intro x hx
      rw [List.mem_map] at hx
      obtain ⟨p, hp, rfl⟩ := hx
      exact ⟨wfE_values hwfe p hp, hprim p hp⟩)]
    dsimp only
    rw [ih w (fun v hv => hrows v (List.mem_cons_of_mem _ hv)) hwftl]
    dsimp only
    rw [← hfst, zip_fst_snd]

end Toon

namespace Toon

theorem parseHeader_eq (cs : List Char) :
    parseHeader cs =
      (if ((if cs.head? = some '#' then cs.tail else cs).takeWhile
            Char.isDigit).isEmpty then none
       else
        match (if cs.head? = some '#' then cs.tail else cs).dropWhile
            Char.isDigit with
        | ']' :: ':' :: tailc =>
          (match tailc with
           | [] => some (digitsToNat ((if cs.head? = some '#' then cs.tail
               else cs).takeWhile Char.isDigit), .block)
           | ' ' :: vals => some (digitsToNat ((if cs.head? = some '#' then
               cs.tail else cs).takeWhile Char.isDigit), .inline vals)
           | _ => none)
        | ']' :: '{' :: more =>
          (match more.reverse with
           | ':' :: '}' :: midrev => some (digitsToNat ((if cs.head? = some '#'
               then cs.tail else cs).takeWhile Char.isDigit), .tab midrev.reverse)
           | _ => none)
        | _ => none) := rfl

theorem header_strip (m : Bool) (n : Nat) (X : List Char) :
    (if ((if m then ['#'] else []) ++ (natChars n ++ ']' :: X)).head? =
        some '#' then
      ((if m then ['#'] else []) ++ (natChars n ++ ']' :: X)).tail
    else (if m then ['#'] else []) ++ (natChars n ++ ']' :: X)) =
      natChars n ++ ']' :: X := by
  cases m with
  | true =>
    rw [show (if (true : Bool) then ['#'] else ([] : List Char)) = ['#'] from rfl,
      List.singleton_append]
    rw [if_pos (by rfl)]
    rfl
  | false =>
    rw [show (if (false : Bool) then ['#'] else ([] : List Char)) = [] from rfl,
      List.nil_append]
    cases hnc : natChars n with
    | nil => exact absurd hnc (natChars_ne_nil n)
    | cons c0 t0 =>
      have hd : c0.isDigit = true := by
        apply natChars_digits n
        rw [hnc]
        exact List.mem_cons_self _ _
      have hne : ¬(((c0 :: t0) ++ ']' :: X).head? = some '#') := by
        simp only [List.cons_append, List.head?_cons, Option.some.injEq]
        exact digit_ne hd (by decide)
      rw [if_neg hne]

theorem header_digits (n : Nat) (X : List Char) :
    (natChars n ++ ']' :: X).takeWhile Char.isDigit = natChars n ∧
    (natChars n ++ ']' :: X).dropWhile Char.isDigit = ']' :: X := by
  constructor
  · rw [takeWhile_app_of_all (natChars_digits n) (']' :: X),
      List.takeWhile_cons, show (']' : Char).isDigit = false from by decide]
    simp
  · rw [dropWhile_app_of_all (natChars_digits n) (']' :: X),
      List.dropWhile_cons, show (']' : Char).isDigit = false from by decide]
    simp

theorem parseHeader_block (m : Bool) (n : Nat) :
    parseHeader ((if m then ['#'] else []) ++ (natChars n ++ [']', ':'])) =
      some (n, .block) := by
  rw [show (natChars n ++ [']', ':']) = natChars n ++ ']' :: [':'] from rfl,
    parseHeader_eq, header_strip m n [':'], (header_digits n [':']).1,
    (header_digits n [':']).2]
  rw [if_neg (by simp [natChars_ne_nil n])]
  rw [digitsToNat_natChars]
  rfl

theorem parseHeader_inline (m : Bool) (n : Nat) (vals : List Char) :
    parseHeader ((if m then ['#'] else []) ++
        (natChars n ++ ']' :: ':' :: ' ' :: vals)) =
      some (n, .inline vals) := by
  rw [parseHeader_eq, header_strip m n (':' :: ' ' :: vals),
    (header_digits n (':' :: ' ' :: vals)).1,
    (header_digits n (':' :: ' ' :: vals)).2]
  rw [if_neg (by simp [natChars_ne_nil n])]
  rw [digitsToNat_natChars]
  rfl

theorem parseHeader_tab (m : Bool) (n : Nat) (mid : List Char) :
    parseHeader ((if m then ['#'] else []) ++
        (natChars n ++ ']' :: '{' :: (mid ++ ['}', ':']))) =
      some (n, .tab mid) := by
  rw [parseHeader_eq, header_strip m n ('{' :: (mid ++ ['}', ':'])),
    (header_digits n ('{' :: (mid ++ ['}', ':']))).1,
    (header_digits n ('{' :: (mid ++ ['}', ':']))).2]
  rw [if_neg (by simp [natChars_ne_nil n])]
  show (match (mid ++ ['}', ':']).reverse with
        | ':' :: '}' :: midrev =>
          some (digitsToNat (natChars n), HForm.tab midrev.reverse)
        | _ => none) = some (n, HForm.tab mid)
  rw [show (mid ++ ['}', ':']).reverse = ':' :: '}' :: mid.reverse from by simp,
    digitsToNat_natChars]
  show some (n, HForm.tab mid.reverse.reverse) = some (n, HForm.tab mid)
  rw [List.reverse_reverse]

end Toon

namespace Toon

theorem splitLinesChars_no_newline : ∀ a : List Char, '\n' ∉ a →
    splitLinesChars a = [a] := by
  intro a
  induction a with
  | nil => intro _; rfl
  | cons c tl ih =>
    intro h
    have hc : ¬c = '\n' := by
      intro he
      exact h (he ▸ List.mem_cons_self _ _)
    rw [splitLinesChars.eq_def]
    dsimp only
    rw [if_neg hc, ih (fun hm => h (List.mem_cons_of_mem _ hm))]

theorem splitLinesChars_append : ∀ (a : List Char), '\n' ∉ a → ∀ b : List Char,
    splitLinesChars (a ++ '\n' :: b) = a :: splitLinesChars b := by
  intro a
  induction a with
  | nil =>
    intro _ b
    rw [List.nil_append, splitLinesChars.eq_def]
    dsimp only
    rw [if_pos rfl]
  | cons c tl ih =>
    intro h b
    have hc : ¬c = '\n' := by
      intro he
      exact h (he ▸ List.mem_cons_self _ _)
    rw [List.cons_append, splitLinesChars.eq_def]
    dsimp only
    rw [if_neg hc, ih (fun hm => h (List.mem_cons_of_mem _ hm)) b]

theorem lineOf_spaces (w : Nat) (c : List Char) (hc : c.head? ≠ some ' ') :
    lineOf (List.replicate w ' ' ++ c) = (w, c) := by
  have hrep : ∀ x ∈ List.replicate w ' ', (fun y => decide (y = ' ')) x = true := by
    intro x hx
    rw [List.eq_of_mem_replicate hx]
    simp
  have hstop : c.takeWhile (fun y => decide (y = ' ')) = [] ∧
      c.dropWhile (fun y => decide (y = ' ')) = c := by
    cases c with
    | nil => exact ⟨rfl, rfl⟩
    | cons x xs =>
      have hx : ¬x = ' ' := by
        intro he
        exact hc (by rw [he]; rfl)
      constructor
      · rw [List.takeWhile_cons, show (decide (x = ' ')) = false from by
          simp [hx]]
        simp
      · rw [List.dropWhile_cons, show (decide (x = ' ')) = false from by
          simp [hx]]
        simp
  rw [lineOf, takeWhile_app_of_all hrep c, dropWhile_app_of_all hrep c,
    hstop.1, hstop.2, List.append_nil, List.length_replicate]

theorem joinLines_singleton (l : Line) : joinLines [l] = lineText l := by
  rw [joinLines.eq_def]

theorem joinLines_cons2 (l l2 : Line) (ls : List Line) :
    joinLines (l :: l2 :: ls) = lineText l ++ '\n' :: joinLines (l2 :: ls) := by
  rw [joinLines.eq_def]

theorem lineText_no_newline {l : Line} (h : '\n' ∉ l.2) : '\n' ∉ lineText l := by
  rw [lineText]
  intro hm
  rcases List.mem_append.mp hm with h1 | h2
  · have := List.eq_of_mem_replicate h1
    cases this
  · exact h h2

theorem toLines_joinLines : ∀ L : List Line,
    (∀ l ∈ L, l.2 ≠ [] ∧ l.2.head? ≠ some ' ' ∧ '\n' ∉ l.2) →
    toLines (joinLines L) = L := by
  intro L
  induction L with
  | nil => intro _; rfl
  | cons l ls ih =>
    intro h
    obtain ⟨hne, hsp, hnl⟩ := h l (List.mem_cons_self _ _)
    obtain ⟨w, c⟩ := l
    have hltnl : '\n' ∉ lineText (w, c) := lineText_no_newline hnl
    have hkeep : (!(w, c).2.isEmpty) = true := by
      cases c with
      | nil => exact absurd rfl hne
      | cons x xs => simp
    cases ls with
    | nil =>
      rw [joinLines_singleton, toLines, splitLinesChars_no_newline _ hltnl,
        List.map_cons, List.map_nil,
        show lineText (w, c) = List.replicate w ' ' ++ c from rfl,
        lineOf_spaces w c hsp]
      rw [List.filter_cons, if_pos hkeep]
      rfl
    | cons l2 ls2 =>
      rw [joinLines_cons2, toLines, splitLinesChars_append _ hltnl,
        List.map_cons,
        show lineText (w, c) = List.replicate w ' ' ++ c from rfl,
        lineOf_spaces w c hsp]
      rw [List.filter_cons, if_pos hkeep]
      have hrec : ((splitLinesChars (joinLines (l2 :: ls2))).map lineOf).filter
          (fun x => !x.2.isEmpty) = l2 :: ls2 :=
        ih (fun x hx => h x (List.mem_cons_of_mem _ hx))
      rw [hrec]

theorem takeDeeper_deep_app {w : Nat} : ∀ {A : List Line},
    (∀ l ∈ A, w < l.1) → ∀ B,
    takeDeeper w (A ++ B) = A ++ takeDeeper w B := by
  intro A
  induction A with
  | nil => intro _ B; rfl
  | cons a tl ih =>
    intro hA B
    rw [List.cons_append, takeDeeper.eq_def]
    dsimp only
    rw [if_pos (hA a (List.mem_cons_self _ _)),
      ih (fun x hx => hA x (List.mem_cons_of_mem _ hx)) B, List.cons_append]

theorem dropDeeper_deep_app {w : Nat} : ∀ {A : List Line},
    (∀ l ∈ A, w < l.1) → ∀ B,
    dropDeeper w (A ++ B) = dropDeeper w B := by
  intro A
  induction A with
  | nil => intro _ B; rfl
  | cons a tl ih =>
    intro hA B
    rw [List.cons_append, dropDeeper.eq_def]
    dsimp only
    rw [if_pos (hA a (List.mem_cons_self _ _)),
      ih (fun x hx => hA x (List.mem_cons_of_mem _ hx)) B]

theorem takeDeeper_stop {w : Nat} {B : List Line}
    (hB : ∀ l, B.head? = some l → l.1 ≤ w) : takeDeeper w B = [] := by
  cases B with
  | nil => rfl
  | cons b tl =>
    rw [takeDeeper.eq_def]
    dsimp only
    rw [if_neg (by simpa using Nat.not_lt.mpr (hB b rfl))]

theorem dropDeeper_stop {w : Nat} {B : List Line}
    (hB : ∀ l, B.head? = some l → l.1 ≤ w) : dropDeeper w B = B := by
  cases B with
  | nil => rfl
  | cons b tl =>
    rw [dropDeeper.eq_def]
    dsimp only
    rw [if_neg (by simpa using Nat.not_lt.mpr (hB b rfl))]

end Toon

namespace Toon

theorem head?_app {α : Type} {A : List α} (B : List α) (h : A ≠ []) :
    (A ++ B).head? = A.head? := by
  cases A with
  | nil => exact absurd rfl h
  | cons a tl => rfl

theorem okContent_app {A : List Char} (B : List Char) (hA : okContent A)
    (hnlB : '\n' ∉ B) : okContent (A ++ B) := by
  obtain ⟨h1, h2, h3⟩ := hA
  refine ⟨by simp [h1], ?_, ?_⟩
  · rw [head?_app B h1]
    exact h2
  · intro hm
    rcases List.mem_append.mp hm with hx | hx
    · exact h3 hx
    · exact hnlB hx

theorem goodTok_okContent {t : List Char} (h : goodTok t) : okContent t := by
  refine ⟨goodTok_ne_nil h, ?_, goodTok_no_newline h⟩
  intro hh
  cases ht : t.head? with
  | none => rw [ht] at hh; cases hh
  | some c =>
    rw [ht] at hh
    have hc : c = ' ' := by
      simpa using hh
    rcases goodTok_head h ht with hs | hq
    · rw [hc] at hs
      exact absurd hs (by decide)
    · rw [hc] at hq
      cases hq

theorem renderKey_okContent (k : String) : okContent (renderKey k) :=
  goodTok_okContent (renderKey_goodTok k)

theorem renderPrim_okContent {v : Value} (hw : wfV v = true)
    (hp : v.isPrim = true) : okContent (renderPrim v) :=
  goodTok_okContent (renderPrim_goodTok hw hp)

theorem joinD_no_newline {d : Char} (hd : ¬d = '\n') :
    ∀ {parts : List (List Char)}, (∀ p ∈ parts, '\n' ∉ p) →
    '\n' ∉ joinD d parts := by
  intro parts
  induction parts with
  | nil => intro _; simp [joinD]
  | cons t ts ih =>
    intro h
    cases ts with
    | nil =>
      rw [joinD_singleton]
      exact h t (List.mem_cons_self _ _)
    | cons t2 ts2 =>
      rw [joinD_cons2]
      intro hm
      rcases List.mem_append.mp hm with hx | hx
      · exact h t (List.mem_cons_self _ _) hx
      · rcases List.mem_cons.mp hx with he | hx2
        · exact hd he.symm
        · exact ih (fun p hp => h p (List.mem_cons_of_mem _ hp)) hx2

theorem delim_ne_newline (dl : Delim) : ¬dl.char = '\n' := by
  cases dl <;> decide

theorem joinD_okContent {d : Char} (hd : ¬d = '\n')
    {parts : List (List Char)} (hne : parts ≠ [])
    (h : ∀ p ∈ parts, okContent p) : okContent (joinD d parts) := by
  cases parts with
  | nil => exact absurd rfl hne
  | cons t ts =>
    have ht := h t (List.mem_cons_self _ _)
    cases ts with
    | nil => rw [joinD_singleton]; exact ht
    | cons t2 ts2 =>
      rw [joinD_cons2]
      refine okContent_app _ ht ?_
      intro hm
      rcases List.mem_cons.mp hm with he | hx
      · exact hd he.symm
      · exact joinD_no_newline hd
          (fun p hp => (h p (List.mem_cons_of_mem _ hp)).2.2) hx

theorem natChars_no_newline (n : Nat) : '\n' ∉ natChars n := by
  intro hm
  have := natChars_digits n _ hm
  exact absurd this (by decide)

theorem lenPart_no_newline (opts : EncodeOptions) (n : Nat) :
    '\n' ∉ lenPart opts n := by
  rw [lenPart]
  intro hm
  rcases List.mem_cons.mp hm with he | hx
  · cases he
  · rcases List.mem_append.mp hx with hy | hy
    · rcases List.mem_append.mp hy with hz | hz
      · cases opts.lengthMarker with
        | true => simp at hz
        | false => simp at hz
      · exact natChars_no_newline n hz
    · simp at hy

end Toon

namespace Toon

theorem mixedHeader_okContent (opts : EncodeOptions) {lp : List Char} (n : Nat)
    (hlp : okContent lp) : okContent (mixedHeader opts lp n) := by
  rw [mixedHeader]
  apply okContent_app
  · exact okContent_app _ hlp (lenPart_no_newline opts n)
  · simp

theorem renderRow_okContent {opts : EncodeOptions} {row : Value}
    {es : List (String × Value)} (hrow : row = .map es) (hne : es ≠ [])
    (hwf : wfV row = true) (hprim : ∀ p ∈ es, (p.2).isPrim = true) :
    okContent (renderRow opts row) := by
  subst hrow
  rw [renderRow_map]
  apply joinD_okContent (delim_ne_newline opts.delimiter)
  · simp [hne]
  · intro p hp
    rw [List.mem_map] at hp
    obtain ⟨q, hq, rfl⟩ := hp
    exact renderPrim_okContent (wfE_values (by rwa [wfV_map] at hwf) q hq)
      (hprim q hq)

theorem braces_no_newline (opts : EncodeOptions) (ks : List String) :
    '\n' ∉ '{' :: (joinD opts.delimiter.char (ks.map renderKey) ++
      ['}', ':']) := by
  intro hm
  rcases List.mem_cons.mp hm with he | hy
  · cases he
  · rcases List.mem_append.mp hy with hz | hz
    · refine joinD_no_newline (delim_ne_newline opts.delimiter) ?_ hz
      intro p hp
      rw [List.mem_map] at hp
      obtain ⟨k, _, rfl⟩ := hp
      exact goodTok_no_newline (renderKey_goodTok k)
    · simp at hz

theorem primListLines_shape {opts : EncodeOptions} {w : Nat} {lp : List Char}
    {items : List Value} {ls : List Line}
    (h : primListLines opts w lp items = some ls)
    (hlp : okContent lp) (hwf : wfL items = true) :
    blockShape w ls ∧ ls ≠ [] := by
  rw [primListLines] at h
  cases htab : tabularHeads items with
  | some ks =>
    rw [htab] at h
    simp only [Option.some.injEq] at h
    subst h
    obtain ⟨hks, hitemsne, hrows⟩ := tabularHeads_spec htab
    refine ⟨⟨?_, ?_⟩, by simp⟩
    · intro l hl
      rcases List.mem_cons.mp hl with rfl | hlr
      · have hok : okContent ((lp ++ lenPart opts items.length) ++
            '{' :: (joinD opts.delimiter.char (ks.map renderKey) ++
              ['}', ':'])) :=
          okContent_app _ (okContent_app _ hlp (lenPart_no_newline opts _))
            (braces_no_newline opts ks)
        exact ⟨le_refl w, hok.1, hok.2.1, hok.2.2⟩
      · rw [List.mem_map] at hlr
        obtain ⟨row, hrowmem, rfl⟩ := hlr
        obtain ⟨es, hrow, hfst, hprim⟩ := hrows row hrowmem
        have hesne : es ≠ [] := by
          intro he
          apply hks
          rw [← hfst, he]
          rfl
        have hok := @renderRow_okContent opts _ _ hrow hesne
          (wfL_values hwf row hrowmem) hprim
        exact ⟨Nat.le_add_right _ _, hok.1, hok.2.1, hok.2.2⟩
    · intro l hl
      simp only [List.head?_cons, Option.some.injEq] at hl
      rw [← hl]
  | none =>
    rw [htab] at h
    split_ifs at h with hap hemp
    · simp only [Option.some.injEq] at h
      subst h
      refine ⟨⟨?_, ?_⟩, by simp⟩
      · intro l hl
        simp only [List.mem_singleton] at hl
        subst hl
        have hok : okContent ((lp ++ lenPart opts 0) ++ [':']) :=
          okContent_app _ (okContent_app _ hlp (lenPart_no_newline opts 0))
            (by simp)
        exact ⟨le_refl w, hok.1, hok.2.1, hok.2.2⟩
      · intro l hl
        simp only [List.head?_cons, Option.some.injEq] at hl
        rw [← hl]
    · simp only [Option.some.injEq] at h
      subst h
      refine ⟨⟨?_, ?_⟩, by simp⟩
      · intro l hl
        simp only [List.mem_singleton] at hl
        subst hl
        have hvals : '\n' ∉ ':' :: ' ' ::
            joinD opts.delimiter.char (items.map renderPrim) := by
          intro hm
          rcases List.mem_cons.mp hm with he | hy
          · cases he
          · rcases List.mem_cons.mp hy with he | hz
            · cases he
            · refine joinD_no_newline (delim_ne_newline opts.delimiter) ?_ hz
              intro p hp
              rw [List.mem_map] at hp
              obtain ⟨v, hv, rfl⟩ := hp
              have hpv : v.isPrim = true := by
                rw [allPrim, List.all_eq_true] at hap
                exact hap v hv
              exact goodTok_no_newline
                (renderPrim_goodTok (wfL_values hwf v hv) hpv)
        have hok : okContent ((lp ++ lenPart opts items.length) ++
            ':' :: ' ' :: joinD opts.delimiter.char (items.map renderPrim)) :=
          okContent_app _ (okContent_app _ hlp (lenPart_no_newline opts _))
            hvals
        exact ⟨le_refl w, hok.1, hok.2.1, hok.2.2⟩
      · intro l hl
        simp only [List.head?_cons, Option.some.injEq] at hl
        rw [← hl]

end Toon

namespace Toon

mutual
theorem shape_encValueB (opts : EncodeOptions) (w : Nat)
    (sp hd lp : List Char) (hsp : okContent sp) (hhd : okContent hd)
    (hlp : okContent lp) : ∀ v : Value, wfV v = true →
      blockShape w (encValueB opts w sp hd lp v) ∧
      encValueB opts w sp hd lp v ≠ []
  | .map es => fun hw => by
    simp only [encValueB]
    have hsh := shape_encEntries opts (w + opts.indent) es
      (by rwa [wfV_map] at hw)
    refine ⟨⟨?_, ?_⟩, by simp⟩
    · intro l hl
      rcases List.mem_cons.mp hl with rfl | hlr
      · exact ⟨le_refl w, hhd.1, hhd.2.1, hhd.2.2⟩
      · have hx := hsh.1 l hlr
        exact ⟨le_trans (Nat.le_add_right w _) hx.1, hx.2⟩
    · intro l hl
      simp only [List.head?_cons, Option.some.injEq] at hl
      rw [← hl]
  | .list items => fun hw => by
    simp only [encValueB]
    cases hpl : primListLines opts w lp items with
    | some ls =>
      exact primListLines_shape hpl hlp (by rwa [wfV_list] at hw)
    | none =>
      have hsh := shape_encItems opts (w + opts.indent) items
        (by rwa [wfV_list] at hw)
      have hok := @mixedHeader_okContent opts lp items.length hlp
      refine ⟨⟨?_, ?_⟩, by simp⟩
      · intro l hl
        rcases List.mem_cons.mp hl with rfl | hlr
        · exact ⟨le_refl w, hok.1, hok.2.1, hok.2.2⟩
        · have hx := hsh.1 l hlr
          exact ⟨le_trans (Nat.le_add_right w _) hx.1, hx.2⟩
      · intro l hl
        simp only [List.head?_cons, Option.some.injEq] at hl
        rw [← hl]
  | .null => fun hw => by
    simp only [encValueB]
    have hok : okContent (sp ++ renderPrim .null) :=
      okContent_app _ hsp (goodTok_no_newline (renderPrim_goodTok hw rfl))
    refine ⟨⟨?_, ?_⟩, by simp⟩
    · intro l hl
      simp only [List.mem_singleton] at hl
      subst hl
      exact ⟨le_refl w, hok.1, hok.2.1, hok.2.2⟩
    · intro l hl
      simp only [List.head?_cons, Option.some.injEq] at hl
      rw [← hl]
  | .bool b => fun hw => by
    simp only [encValueB]
    have hok : okContent (sp ++ renderPrim (.bool b)) :=
      okContent_app _ hsp (goodTok_no_newline (renderPrim_goodTok hw rfl))
    refine ⟨⟨?_, ?_⟩, by simp⟩
    · intro l hl
      simp only [List.mem_singleton] at hl
      subst hl
      exact ⟨le_refl w, hok.1, hok.2.1, hok.2.2⟩
    · intro l hl
      simp only [List.head?_cons, Option.some.injEq] at hl
      rw [← hl]
  | .num lit => fun hw => by
    simp only [encValueB]
    have hok : okContent (sp ++ renderPrim (.num lit)) :=
      okContent_app _ hsp (goodTok_no_newline (renderPrim_goodTok hw rfl))
    refine ⟨⟨?_, ?_⟩, by simp⟩
    · intro l hl
      simp only [List.mem_singleton] at hl
      subst hl
      exact ⟨le_refl w, hok.1, hok.2.1, hok.2.2⟩
    · intro l hl
      simp only [List.head?_cons, Option.some.injEq] at hl
      rw [← hl]
  | .str s => fun hw => by
    simp only [encValueB]
    have hok : okContent (sp ++ renderPrim (.str s)) :=
      okContent_app _ hsp (goodTok_no_newline (renderPrim_goodTok hw rfl))
    refine ⟨⟨?_, ?_⟩, by simp⟩
    · intro l hl
      simp only [List.mem_singleton] at hl
      subst hl
      exact ⟨le_refl w, hok.1, hok.2.1, hok.2.2⟩
    · intro l hl
      simp only [List.head?_cons, Option.some.injEq] at hl
      rw [← hl]

theorem shape_encEntries (opts : EncodeOptions) (w : Nat) :
    ∀ es : List (String × Value), wfE es = true →
      blockShape w (encEntries opts w es)
  | [] => fun _ => by
    simp only [encEntries]
    exact ⟨fun l hl => absurd hl (List.not_mem_nil l), fun l hl => by cases hl⟩
  | (k, v) :: tl => fun hw => by
    obtain ⟨hwv, hwtl⟩ := wfE_cons hw
    simp only [encEntries]
    have hkeyok := renderKey_okContent k
    have hsp : okContent (renderKey k ++ [':', ' ']) :=
      okContent_app _ hkeyok (by simp)
    have hhd : okContent (renderKey k ++ [':']) :=
      okContent_app _ hkeyok (by simp)
    have hv := shape_encValueB opts w (renderKey k ++ [':', ' '])
      (renderKey k ++ [':']) (renderKey k) hsp hhd hkeyok v hwv
    have htl := shape_encEntries opts w tl hwtl
    refine ⟨?_, ?_⟩
    · intro l hl
      rcases List.mem_append.mp hl with hx | hx
      · exact hv.1.1 l hx
      · exact htl.1 l hx
    · intro l hl
      rw [head?_app _ hv.2] at hl
      exact hv.1.2 l hl

theorem shape_encItems (opts : EncodeOptions) (w : Nat) :
    ∀ items : List Value, wfL items = true →
      blockShape w (encItems opts w items)
  | [] => fun _ => by
    simp only [encItems]
    exact ⟨fun l hl => absurd hl (List.not_mem_nil l), fun l hl => by cases hl⟩
  | v :: tl => fun hw => by
    obtain ⟨hwv, hwtl⟩ := wfL_cons hw
    simp only [encItems]
    have hdash : okContent ['-', ' '] := by
      refine ⟨by simp, by simp, by simp⟩
    have hdash2 : okContent ['-'] := by
      refine ⟨by simp, by simp, by simp⟩
    have hv := shape_encValueB opts w ['-', ' '] ['-'] ['-', ' ']
      hdash hdash2 hdash v hwv
    have htl := shape_encItems opts w tl hwtl
    refine ⟨?_, ?_⟩
    · intro l hl
      rcases List.mem_append.mp hl with hx | hx
      · exact hv.1.1 l hx
      · exact htl.1 l hx
    · intro l hl
      rw [head?_app _ hv.2] at hl
      exact hv.1.2 l hl
end

end Toon

namespace Toon

theorem pListBody_tab (opts : EncodeOptions) {items : List Value}
    {ks : List String} (htab : tabularHeads items = some ks)
    (hwf : wfL items = true) (w fuel : Nat) :
    pListBody (fuel + 1) items.length
      (.tab (joinD opts.delimiter.char (ks.map renderKey)))
      (items.map (fun row => (w, renderRow opts row))) = .ok (.list items) := by
  obtain ⟨hks, hne, hrows⟩ := tabularHeads_spec htab
  rw [pListBody.eq_def]
  dsimp only
  rw [if_pos (by simp)]
  have hmid : splitVals (joinD opts.delimiter.char (ks.map renderKey)) =
      ks.map renderKey := by
    apply splitVals_joinD _ (Delim.char_cases opts.delimiter)
    · simp [hks]
    · intro t ht
      rw [List.mem_map] at ht
      obtain ⟨k, _, rfl⟩ := ht
      exact renderKey_goodTok k
  rw [hmid, pKeys_map]
  dsimp only
  rw [pRows_rows opts ks hks items w hrows hwf]

theorem pListBody_inline (opts : EncodeOptions) {items : List Value}
    (hap : allPrim items = true) (hne : items ≠ [])
    (hwf : wfL items = true) (fuel : Nat) :
    pListBody (fuel + 1) items.length
      (.inline (joinD opts.delimiter.char (items.map renderPrim))) [] =
      .ok (.list items) := by
  have hprim : ∀ v ∈ items, wfV v = true ∧ v.isPrim = true := by
    intro v hv
    rw [allPrim, List.all_eq_true] at hap
    exact ⟨wfL_values hwf v hv, hap v hv⟩
  rw [pListBody.eq_def]
  dsimp only
  rw [if_pos (show ([] : List Line).isEmpty = true from rfl)]
  have hsv : splitVals (joinD opts.delimiter.char (items.map renderPrim)) =
      items.map renderPrim := by
    apply splitVals_joinD _ (Delim.char_cases opts.delimiter)
    · simp [hne]
    · intro t ht
      rw [List.mem_map] at ht
      obtain ⟨v, hv, rfl⟩ := ht
      exact renderPrim_goodTok (hprim v hv).1 (hprim v hv).2
  rw [hsv, if_pos (by simp), pScalars_map items hprim]

theorem pListBody_empty (fuel : Nat) :
    pListBody (fuel + 1) 0 .block [] = .ok (.list []) := by
  rw [pListBody.eq_def]
  dsimp only
  rfl

theorem pListBody_mixed {items : List Value} {block : List Line}
    {w1 fuel : Nat} (hne : items ≠ [])
    (hhead : ∀ l, block.head? = some l → l.1 = w1)
    (hbne : block ≠ [])
    (hp : pItems fuel w1 block = .ok items) :
    pListBody (fuel + 1) items.length .block block = .ok (.list items) := by
  rw [pListBody.eq_def]
  dsimp only
  rw [if_neg (by simp [hne])]
  cases block with
  | nil => exact absurd rfl hbne
  | cons b rest =>
    obtain ⟨w1', c⟩ := b
    have hw1 : w1' = w1 := hhead (w1', c) rfl
    subst hw1
    dsimp only
    rw [hp]
    dsimp only
    rw [if_pos rfl]

end Toon

namespace Toon

theorem key_header_content (k : String) (opts : EncodeOptions) (n : Nat)
    (Z : List Char) :
    (renderKey k ++ lenPart opts n) ++ Z =
      renderKey k ++ '[' :: ((if opts.lengthMarker then ['#'] else []) ++
        (natChars n ++ ']' :: Z)) := by
  simp [lenPart]

theorem dash_header_content (opts : EncodeOptions) (n : Nat) (Z : List Char) :
    (['-', ' '] ++ lenPart opts n) ++ Z =
      '-' :: ' ' :: '[' :: ((if opts.lengthMarker then ['#'] else []) ++
        (natChars n ++ ']' :: Z)) := by
  simp [lenPart]

theorem root_header_content (opts : EncodeOptions) (n : Nat) (Z : List Char) :
    (([] : List Char) ++ lenPart opts n) ++ Z =
      '[' :: ((if opts.lengthMarker then ['#'] else []) ++
        (natChars n ++ ']' :: Z)) := by
  simp [lenPart]

theorem goodTok_ne_lbrack {t : List Char} (h : goodTok t) (rtail : List Char) :
    t ≠ '[' :: rtail := by
  intro he
  rcases goodTok_head h (by rw [he]; rfl) with hs | hq
  · exact absurd hs (by decide)
  · exact absurd hq (by decide)

theorem encEntries_nil (opts : EncodeOptions) (w : Nat)
    {es : List (String × Value)} (hw : wfE es = true)
    (h : encEntries opts w es = []) : es = [] := by
  cases es with
  | nil => rfl
  | cons e tl =>
    obtain ⟨k, v⟩ := e
    obtain ⟨hwv, hwtl⟩ := wfE_cons hw
    simp only [encEntries] at h
    rw [List.append_eq_nil] at h
    have hkeyok := renderKey_okContent k
    exact absurd h.1 (shape_encValueB opts w _ _ _
      (okContent_app _ hkeyok (by simp)) (okContent_app _ hkeyok (by simp))
      hkeyok v hwv).2

theorem encItems_nil (opts : EncodeOptions) (w : Nat)
    {items : List Value} (hw : wfL items = true)
    (h : encItems opts w items = []) : items = [] := by
  cases items with
  | nil => rfl
  | cons v tl =>
    obtain ⟨hwv, hwtl⟩ := wfL_cons hw
    simp only [encItems] at h
    rw [List.append_eq_nil] at h
    exact absurd h.1 (shape_encValueB opts w ['-', ' '] ['-'] ['-', ' ']
      ⟨by simp, by simp, by simp⟩ ⟨by simp, by simp, by simp⟩
      ⟨by simp, by simp, by simp⟩ v hwv).2

theorem pBlockValue_entries {es : List (String × Value)} {body : List Line}
    {w f : Nat} (hnil : body = [] → es = [])
    (hhead : ∀ l, body.head? = some l → l.1 = w)
    (hp : pEntries f w body = .ok es) :
    pBlockValue (f + 1) body = .ok (.map es) := by
  cases body with
  | nil =>
    rw [hnil rfl]
    rfl
  | cons b rest =>
    obtain ⟨w1, c⟩ := b
    have hw1 : w1 = w := hhead (w1, c) rfl
    subst hw1
    rw [pBlockValue.eq_def]
    dsimp only
    rw [hp]

end Toon

namespace Toon

theorem takeDeeper_all {w : Nat} {A : List Line} (hA : ∀ l ∈ A, w < l.1) :
    takeDeeper w A = A := by
  have h := takeDeeper_deep_app hA []
  rw [List.append_nil] at h
  rw [h, show takeDeeper w ([] : List Line) = [] from rfl, List.append_nil]

theorem dropDeeper_all {w : Nat} {A : List Line} (hA : ∀ l ∈ A, w < l.1) :
    dropDeeper w A = [] := by
  have h := dropDeeper_deep_app hA []
  rw [List.append_nil] at h
  rw [h]
  rfl

theorem goodTok_app_ne_lbrack {t : List Char} (h : goodTok t)
    (B rt : List Char) : t ++ B ≠ '[' :: rt := by
  intro he
  have hne := goodTok_ne_nil h
  have hhd : (t ++ B).head? = some '[' := by rw [he]; rfl
  rw [head?_app B hne] at hhd
  rcases goodTok_head h hhd with hs | hq
  · exact absurd hs (by decide)
  · exact absurd hq (by decide)

theorem pItems_cons_scalar (f w : Nat) {tok : List Char} (rest : List Line)
    (htok : ∀ rt, tok ≠ '[' :: rt) :
    pItems (f + 1) w ((w, '-' :: ' ' :: tok) :: rest) =
      (match parseScalarToken tok with
       | .ok v =>
         (match pItems f w rest with
          | .ok vs => .ok (v :: vs)
          | .error e => .error e)
       | .error e => .error e) := by
  rw [pItems.eq_def]
  dsimp only
  rw [if_pos rfl]
  split
  · rename_i ctail heq
    injection heq with h1 h2
    subst h2
    split
    · rename_i heq2
      simp at heq2
    · rename_i tok' heq2
      injection heq2 with h3 h4
      subst h4
      split
      · exact absurd rfl (htok _)
      · rfl
    · rename_i hne1 hne2
      exact absurd rfl (hne2 tok)
  · rename_i hne
    exact absurd rfl (hne (' ' :: tok))

theorem parseRoot_not_lbrack (fuel w0 : Nat) {c : List Char} (rest : List Line)
    (hc : ∀ rt, c ≠ '[' :: rt) :
    parseRoot fuel ((w0, c) :: rest) =
      (match splitKey c with
       | some _ =>
         (match pEntries fuel w0 ((w0, c) :: rest) with
          | .ok es => .ok (.map es)
          | .error e => .error e)
       | none =>
         if rest.isEmpty then parseScalarToken c
         else .error .unknownLineForm) := by
  rw [parseRoot.eq_def]
  dsimp only
  split
  · exact absurd rfl (hc _)
  · rfl

end Toon

namespace Toon

theorem encValueB_first (opts : EncodeOptions) (w : Nat) (k : String)
    (v : Value) : ∃ X rest,
      (X.head? = some ':' ∨ X.head? = some '[') ∧
      encValueB opts w (renderKey k ++ [':', ' ']) (renderKey k ++ [':'])
        (renderKey k) v = (w, renderKey k ++ X) :: rest := by
  cases v with
  | map es => exact ⟨[':'], _, Or.inl rfl, rfl⟩
  | list items =>
    simp only [encValueB]
    cases htab : tabularHeads items with
    | some ks =>
      rw [primListLines, htab]
      dsimp only
      refine ⟨lenPart opts items.length ++ '{' ::
        (joinD opts.delimiter.char (ks.map renderKey) ++ ['}', ':']),
        items.map (fun row => (w + opts.indent, renderRow opts row)),
        Or.inr rfl, ?_⟩
      rw [List.append_assoc]
    | none =>
      rw [primListLines, htab]
      by_cases hap : allPrim items = true
      · rw [if_pos hap]
        by_cases hemp : items = []
        · subst hemp
          rw [if_pos (show ([] : List Value).isEmpty = true from rfl)]
          refine ⟨lenPart opts 0 ++ [':'], [], Or.inr rfl, ?_⟩
          rw [List.append_assoc]
        · rw [if_neg (by simp [hemp])]
          refine ⟨lenPart opts items.length ++ ':' :: ' ' ::
            joinD opts.delimiter.char (items.map renderPrim), [],
            Or.inr rfl, ?_⟩
          rw [List.append_assoc]
      · rw [if_neg hap]
        dsimp only
        refine ⟨lenPart opts items.length ++ [':'],
          encItems opts (w + opts.indent) items, Or.inr rfl, ?_⟩
        rw [mixedHeader, List.append_assoc]
  | null => exact ⟨[':', ' '] ++ renderPrim .null, [],
      Or.inl rfl, by simp only [encValueB]; rw [List.append_assoc]⟩
  | bool b => exact ⟨[':', ' '] ++ renderPrim (.bool b), [],
      Or.inl rfl, by simp only [encValueB]; rw [List.append_assoc]⟩
  | num lit => exact ⟨[':', ' '] ++ renderPrim (.num lit), [],
      Or.inl rfl, by simp only [encValueB]; rw [List.append_assoc]⟩
  | str s => exact ⟨[':', ' '] ++ renderPrim (.str s), [],
      Or.inl rfl, by simp only [encValueB]; rw [List.append_assoc]⟩

end Toon

namespace Toon

theorem splitKey_renderKey_colon (k : String) (W : List Char) :
    splitKey (renderKey k ++ ':' :: W) = some (k, ':' :: W) :=
  splitKey_renderKey k (':' :: W) (Or.inl rfl)

theorem splitKey_renderKey_lbrack (k : String) (W : List Char) :
    splitKey (renderKey k ++ '[' :: W) = some (k, '[' :: W) :=
  splitKey_renderKey k ('[' :: W) (Or.inr rfl)

mutual
/-- Parsing the encoder's entry lines recovers the entries. -/
theorem rtEntries (opts : EncodeOptions) (hind : 1 ≤ opts.indent) :
    ∀ (es : List (String × Value)) (w fuel : Nat), wfE es = true →
      2 * (encEntries opts w es).length + 2 ≤ fuel →
      pEntries fuel w (encEntries opts w es) = Except.ok es
  | [] => fun w fuel _ hf => by
    obtain ⟨f, rfl⟩ : ∃ f, fuel = f + 1 := ⟨fuel - 1, by omega⟩
    rw [show encEntries opts w [] = [] from rfl, pEntries.eq_def]
  | (k, .null) :: tl => fun w fuel hw hf => by
    obtain ⟨hwv, hwtl⟩ := wfE_cons hw
    obtain ⟨f, rfl⟩ : ∃ f, fuel = f + 1 := ⟨fuel - 1, by omega⟩
    simp only [encEntries, encValueB, List.singleton_append] at hf ⊢
    rw [pEntries.eq_def]
    dsimp only
    rw [if_pos rfl,
      show (renderKey k ++ [':', ' ']) ++ renderPrim .null =
        renderKey k ++ ':' :: ' ' :: renderPrim .null from by simp,
      splitKey_renderKey_colon]
    show (match parseScalarToken (renderPrim .null) with
          | Except.ok v =>
            (match pEntries f w (encEntries opts w tl) with
             | Except.ok tl' => Except.ok ((k, v) :: tl')
             | Except.error e => Except.error e)
          | Except.error e => Except.error e) = Except.ok ((k, Value.null) :: tl)
    rw [parseScalarToken_renderPrim hwv rfl]
    dsimp only
    rw [rtEntries opts hind tl w f hwtl (by
      simp only [List.length_cons] at hf
      omega)]
  | (k, .bool b) :: tl => fun w fuel hw hf => by
    obtain ⟨hwv, hwtl⟩ := wfE_cons hw
    obtain ⟨f, rfl⟩ : ∃ f, fuel = f + 1 := ⟨fuel - 1, by omega⟩
    simp only [encEntries, encValueB, List.singleton_append] at hf ⊢
    rw [pEntries.eq_def]
    dsimp only
    rw [if_pos rfl,
      show (renderKey k ++ [':', ' ']) ++ renderPrim (.bool b) =
        renderKey k ++ ':' :: ' ' :: renderPrim (.bool b) from by simp,
      splitKey_renderKey_colon]
    show (match parseScalarToken (renderPrim (.bool b)) with
          | Except.ok v =>
            (match pEntries f w (encEntries opts w tl) with
             | Except.ok tl' => Except.ok ((k, v) :: tl')
             | Except.error e => Except.error e)
          | Except.error e => Except.error e) = Except.ok ((k, Value.bool b) :: tl)
    rw [parseScalarToken_renderPrim hwv rfl]
    dsimp only
    rw [rtEntries opts hind tl w f hwtl (by
      simp only [List.length_cons] at hf
      omega)]
  | (k, .num lit) :: tl => fun w fuel hw hf => by
    obtain ⟨hwv, hwtl⟩ := wfE_cons hw
    obtain ⟨f, rfl⟩ : ∃ f, fuel = f + 1 := ⟨fuel - 1, by omega⟩
    simp only [encEntries, encValueB, List.singleton_append] at hf ⊢
    rw [pEntries.eq_def]
    dsimp only
    rw [if_pos rfl,
      show (renderKey k ++ [':', ' ']) ++ renderPrim (.num lit) =
        renderKey k ++ ':' :: ' ' :: renderPrim (.num lit) from by simp,
      splitKey_renderKey_colon]
    show (match parseScalarToken (renderPrim (.num lit)) with
          | Except.ok v =>
            (match pEntries f w (encEntries opts w tl) with
             | Except.ok tl' => Except.ok ((k, v) :: tl')
             | Except.error e => Except.error e)
          | Except.error e => Except.error e) = Except.ok ((k, Value.num lit) :: tl)
    rw [parseScalarToken_renderPrim hwv rfl]
    dsimp only
    rw [rtEntries opts hind tl w f hwtl (by
      simp only [List.length_cons] at hf
      omega)]
  | (k, .str s) :: tl => fun w fuel hw hf => by
    obtain ⟨hwv, hwtl⟩ := wfE_cons hw
    obtain ⟨f, rfl⟩ : ∃ f, fuel = f + 1 := ⟨fuel - 1, by omega⟩
    simp only [encEntries, encValueB, List.singleton_append] at hf ⊢
    rw [pEntries.eq_def]
    dsimp only
    rw [if_pos rfl,
      show (renderKey k ++ [':', ' ']) ++ renderPrim (.str s) =
        renderKey k ++ ':' :: ' ' :: renderPrim (.str s) from by simp,
      splitKey_renderKey_colon]
    show (match parseScalarToken (renderPrim (.str s)) with
          | Except.ok v =>
            (match pEntries f w (encEntries opts w tl) with
             | Except.ok tl' => Except.ok ((k, v) :: tl')
             | Except.error e => Except.error e)
          | Except.error e => Except.error e) = Except.ok ((k, Value.str s) :: tl)
    rw [parseScalarToken_renderPrim hwv rfl]
    dsimp only
    rw [rtEntries opts hind tl w f hwtl (by
      simp only [List.length_cons] at hf
      omega)]
  | (k, .map es') :: tl => fun w fuel hw hf => by
    obtain ⟨hwv, hwtl⟩ := wfE_cons hw
    have hwes' : wfE es' = true := by rwa [wfV_map] at hwv
    obtain ⟨f1, rfl⟩ : ∃ f1, fuel = f1 + 2 := ⟨fuel - 2, by omega⟩
    simp only [encEntries, encValueB, List.cons_append] at hf ⊢
    have hbody := shape_encEntries opts (w + opts.indent) es' hwes'
    have htlsh := shape_encEntries opts w tl hwtl
    have hdeep : ∀ l ∈ encEntries opts (w + opts.indent) es', w < l.1 :=
      fun l hl => lt_of_lt_of_le (by omega) (hbody.1 l hl).1
    have hstop : ∀ l, (encEntries opts w tl).head? = some l → l.1 ≤ w :=
      fun l hl => le_of_eq (htlsh.2 l hl)
    rw [pEntries.eq_def]
    dsimp only
    rw [if_pos rfl, splitKey_renderKey_colon k []]
    show (match pBlockValue (f1 + 1)
            (takeDeeper w (encEntries opts (w + opts.indent) es' ++
              encEntries opts w tl)) with
          | Except.ok v =>
            (match pEntries (f1 + 1) w
                (dropDeeper w (encEntries opts (w + opts.indent) es' ++
                  encEntries opts w tl)) with
             | Except.ok tl' => Except.ok ((k, v) :: tl')
             | Except.error e => Except.error e)
          | Except.error e => Except.error e) = Except.ok ((k, Value.map es') :: tl)
    rw [takeDeeper_deep_app hdeep, takeDeeper_stop hstop, List.append_nil,
      dropDeeper_deep_app hdeep, dropDeeper_stop hstop]
    rw [pBlockValue_entries
      (fun hb => encEntries_nil opts (w + opts.indent) hwes' hb)
      (fun l hl => hbody.2 l hl)
      (rtEntries opts hind es' (w + opts.indent) f1 hwes' (by
        simp only [List.length_cons, List.length_append] at hf
        omega))]
    dsimp only
    rw [rtEntries opts hind tl w (f1 + 1) hwtl (by
      simp only [List.length_cons, List.length_append] at hf
      omega)]
  | (k, .list items) :: tl => fun w fuel hw hf => by
    obtain ⟨hwv, hwtl⟩ := wfE_cons hw
    have hwitems : wfL items = true := by rwa [wfV_list] at hwv
    obtain ⟨f1, rfl⟩ : ∃ f1, fuel = f1 + 2 := ⟨fuel - 2, by omega⟩
    have htlsh := shape_encEntries opts w tl hwtl
    have hstop : ∀ l, (encEntries opts w tl).head? = some l → l.1 ≤ w :=
      fun l hl => le_of_eq (htlsh.2 l hl)
    simp only [encEntries, encValueB] at hf ⊢
    cases htab : tabularHeads items with
    | some ks =>
      rw [primListLines, htab] at hf ⊢
      dsimp only at hf ⊢
      simp only [List.cons_append] at hf ⊢
      rw [pEntries.eq_def]
      dsimp only
      rw [if_pos rfl, key_header_content, splitKey_renderKey_lbrack]
      show (match parseHeader ((if opts.lengthMarker then ['#'] else []) ++
              (natChars items.length ++ ']' :: '{' ::
                (joinD opts.delimiter.char (ks.map renderKey) ++
                  ['}', ':']))) with
            | none => Except.error Err.unknownLineForm
            | some (n, form) =>
              (match pListBody (f1 + 1) n form
                  (takeDeeper w (items.map (fun row =>
                    (w + opts.indent, renderRow opts row)) ++
                    encEntries opts w tl)) with
               | Except.ok v =>
                 (match pEntries (f1 + 1) w
                     (dropDeeper w (items.map (fun row =>
                       (w + opts.indent, renderRow opts row)) ++
                       encEntries opts w tl)) with
                  | Except.ok tl' => Except.ok ((k, v) :: tl')
                  | Except.error e => Except.error e)
               | Except.error e => Except.error e)) = Except.ok ((k, Value.list items) :: tl)
      rw [parseHeader_tab opts.lengthMarker items.length]
      dsimp only
      have hdeep : ∀ l ∈ items.map (fun row =>
          (w + opts.indent, renderRow opts row)), w < l.1 := by
        intro l hl
        rw [List.mem_map] at hl
        obtain ⟨row, _, rfl⟩ := hl
        show w < w + opts.indent
        omega
      rw [takeDeeper_deep_app hdeep, takeDeeper_stop hstop, List.append_nil,
        dropDeeper_deep_app hdeep, dropDeeper_stop hstop]
      rw [pListBody_tab opts htab hwitems (w + opts.indent) f1]
      dsimp only
      rw [rtEntries opts hind tl w (f1 + 1) hwtl (by
        simp only [List.length_cons, List.length_append, List.length_map]
          at hf
        omega)]
    | none =>
      rw [primListLines, htab] at hf ⊢
      by_cases hap : allPrim items = true
      · rw [if_pos hap] at hf ⊢
        by_cases hemp : items = []
        · subst hemp
          rw [if_pos (show ([] : List Value).isEmpty = true from rfl)]
            at hf ⊢
          dsimp only at hf ⊢
          simp only [List.singleton_append] at hf ⊢
          rw [pEntries.eq_def]
          dsimp only
          rw [if_pos rfl, key_header_content, splitKey_renderKey_lbrack]
          show (match parseHeader ((if opts.lengthMarker then ['#']
                  else []) ++ (natChars 0 ++ ']' :: [':'])) with
                | none => Except.error Err.unknownLineForm
                | some (n, form) =>
                  (match pListBody (f1 + 1) n form
                      (takeDeeper w (encEntries opts w tl)) with
                   | Except.ok v =>
                     (match pEntries (f1 + 1) w
                         (dropDeeper w (encEntries opts w tl)) with
                      | Except.ok tl' => Except.ok ((k, v) :: tl')
                      | Except.error e => Except.error e)
                   | Except.error e => Except.error e)) =
              .ok ((k, Value.list []) :: tl)
          rw [parseHeader_block opts.lengthMarker 0]
          dsimp only
          rw [takeDeeper_stop hstop, dropDeeper_stop hstop,
            pListBody_empty f1]
          dsimp only
          rw [rtEntries opts hind tl w (f1 + 1) hwtl (by
            simp only [List.length_cons] at hf
            omega)]
        · rw [if_neg (by simp [hemp])] at hf ⊢
          dsimp only at hf ⊢
          simp only [List.singleton_append] at hf ⊢
          rw [pEntries.eq_def]
          dsimp only
          rw [if_pos rfl, key_header_content, splitKey_renderKey_lbrack]
          show (match parseHeader ((if opts.lengthMarker then ['#']
                  else []) ++ (natChars items.length ++ ']' :: ':' :: ' ' ::
                    joinD opts.delimiter.char (items.map renderPrim))) with
                | none => Except.error Err.unknownLineForm
                | some (n, form) =>
                  (match pListBody (f1 + 1) n form
                      (takeDeeper w (encEntries opts w tl)) with
                   | Except.ok v =>
                     (match pEntries (f1 + 1) w
                         (dropDeeper w (encEntries opts w tl)) with
                      | Except.ok tl' => Except.ok ((k, v) :: tl')
                      | Except.error e => Except.error e)
                   | Except.error e => Except.error e)) =
              .ok ((k, Value.list items) :: tl)
          rw [parseHeader_inline opts.lengthMarker items.length]
          dsimp only
          rw [takeDeeper_stop hstop, dropDeeper_stop hstop,
            pListBody_inline opts hap hemp hwitems f1]
          dsimp only
          rw [rtEntries opts hind tl w (f1 + 1) hwtl (by
            simp only [List.length_cons] at hf
            omega)]
      · rw [if_neg hap] at hf ⊢
        dsimp only at hf ⊢
        simp only [List.cons_append] at hf ⊢
        have hitemsne : items ≠ [] := by
          intro he
          subst he
          exact hap rfl
        have hbodysh := shape_encItems opts (w + opts.indent) items hwitems
        have hbodyne : encItems opts (w + opts.indent) items ≠ [] :=
          fun hb => hitemsne (encItems_nil opts _ hwitems hb)
        have hdeep : ∀ l ∈ encItems opts (w + opts.indent) items, w < l.1 :=
          fun l hl => lt_of_lt_of_le (by omega) (hbodysh.1 l hl).1
        rw [pEntries.eq_def]
        dsimp only
        rw [if_pos rfl,
          show mixedHeader opts (renderKey k) items.length =
            (renderKey k ++ lenPart opts items.length) ++ [':'] from rfl,
          key_header_content, splitKey_renderKey_lbrack]
        show (match parseHeader ((if opts.lengthMarker then ['#']
                else []) ++ (natChars items.length ++ ']' :: [':'])) with
              | none => Except.error Err.unknownLineForm
              | some (n, form) =>
                (match pListBody (f1 + 1) n form
                    (takeDeeper w (encItems opts (w + opts.indent) items ++
                      encEntries opts w tl)) with
                 | Except.ok v =>
                   (match pEntries (f1 + 1) w
                       (dropDeeper w (encItems opts (w + opts.indent)
                         items ++ encEntries opts w tl)) with
                    | Except.ok tl' => Except.ok ((k, v) :: tl')
                    | Except.error e => Except.error e)
                 | Except.error e => Except.error e)) =
            .ok ((k, Value.list items) :: tl)
        rw [parseHeader_block opts.lengthMarker items.length]
        dsimp only
        rw [takeDeeper_deep_app hdeep, takeDeeper_stop hstop,
          List.append_nil, dropDeeper_deep_app hdeep, dropDeeper_stop hstop]
        rw [pListBody_mixed hitemsne (fun l hl => hbodysh.2 l hl) hbodyne
          (rtItems opts hind items (w + opts.indent) f1 hwitems (by
            simp only [List.length_cons, List.length_append] at hf
            omega))]
        dsimp only
        rw [rtEntries opts hind tl w (f1 + 1) hwtl (by
          simp only [List.length_cons, List.length_append] at hf
          omega)]

/-- Parsing the encoder's mixed-list item lines recovers the items. -/
theorem rtItems (opts : EncodeOptions) (hind : 1 ≤ opts.indent) :
    ∀ (items : List Value) (w fuel : Nat), wfL items = true →
      2 * (encItems opts w items).length + 2 ≤ fuel →
      pItems fuel w (encItems opts w items) = Except.ok items
  | [] => fun w fuel _ hf => by
    obtain ⟨f, rfl⟩ : ∃ f, fuel = f + 1 := ⟨fuel - 1, by omega⟩
    rw [show encItems opts w [] = [] from rfl, pItems.eq_def]
  | .null :: tl => fun w fuel hw hf => by
    obtain ⟨hwv, hwtl⟩ := wfL_cons hw
    obtain ⟨f, rfl⟩ : ∃ f, fuel = f + 1 := ⟨fuel - 1, by omega⟩
    simp only [encItems, encValueB, List.singleton_append] at hf ⊢
    rw [show (['-', ' '] : List Char) ++ renderPrim .null =
        '-' :: ' ' :: renderPrim .null from rfl]
    rw [pItems_cons_scalar f w (encItems opts w tl)
      (fun rt => goodTok_ne_lbrack (renderPrim_goodTok hwv rfl) rt)]
    rw [parseScalarToken_renderPrim hwv rfl]
    dsimp only
    rw [rtItems opts hind tl w f hwtl (by
      simp only [List.length_cons] at hf
      omega)]
  | .bool b :: tl => fun w fuel hw hf => by
    obtain ⟨hwv, hwtl⟩ := wfL_cons hw
    obtain ⟨f, rfl⟩ : ∃ f, fuel = f + 1 := ⟨fuel - 1, by omega⟩
    simp only [encItems, encValueB, List.singleton_append] at hf ⊢
    rw [show (['-', ' '] : List Char) ++ renderPrim (.bool b) =
        '-' :: ' ' :: renderPrim (.bool b) from rfl]
    rw [pItems_cons_scalar f w (encItems opts w tl)
      (fun rt => goodTok_ne_lbrack (renderPrim_goodTok hwv rfl) rt)]
    rw [parseScalarToken_renderPrim hwv rfl]
    dsimp only
    rw [rtItems opts hind tl w f hwtl (by
      simp only [List.length_cons] at hf
      omega)]
  | .num lit :: tl => fun w fuel hw hf => by
    obtain ⟨hwv, hwtl⟩ := wfL_cons hw
    obtain ⟨f, rfl⟩ : ∃ f, fuel = f + 1 := ⟨fuel - 1, by omega⟩
    simp only [encItems, encValueB, List.singleton_append] at hf ⊢
    rw [show (['-', ' '] : List Char) ++ renderPrim (.num lit) =
        '-' :: ' ' :: renderPrim (.num lit) from rfl]
    rw [pItems_cons_scalar f w (encItems opts w tl)
      (fun rt => goodTok_ne_lbrack (renderPrim_goodTok hwv rfl) rt)]
    rw [parseScalarToken_renderPrim hwv rfl]
    dsimp only
    rw [rtItems opts hind tl w f hwtl (by
      simp only [List.length_cons] at hf
      omega)]
  | .str s :: tl => fun w fuel hw hf => by
    obtain ⟨hwv, hwtl⟩ := wfL_cons hw
    obtain ⟨f, rfl⟩ : ∃ f, fuel = f + 1 := ⟨fuel - 1, by omega⟩
    simp only [encItems, encValueB, List.singleton_append] at hf ⊢
    rw [show (['-', ' '] : List Char) ++ renderPrim (.str s) =
        '-' :: ' ' :: renderPrim (.str s) from rfl]
    rw [pItems_cons_scalar f w (encItems opts w tl)
      (fun rt => goodTok_ne_lbrack (renderPrim_goodTok hwv rfl) rt)]
    rw [parseScalarToken_renderPrim hwv rfl]
    dsimp only
    rw [rtItems opts hind tl w f hwtl (by
      simp only [List.length_cons] at hf
      omega)]
  | .map es' :: tl => fun w fuel hw hf => by
    obtain ⟨hwv, hwtl⟩ := wfL_cons hw
    have hwes' : wfE es' = true := by rwa [wfV_map] at hwv
    obtain ⟨f1, rfl⟩ : ∃ f1, fuel = f1 + 2 := ⟨fuel - 2, by omega⟩
    simp only [encItems, encValueB, List.cons_append] at hf ⊢
    have hbody := shape_encEntries opts (w + opts.indent) es' hwes'
    have htlsh := shape_encItems opts w tl hwtl
    have hdeep : ∀ l ∈ encEntries opts (w + opts.indent) es', w < l.1 :=
      fun l hl => lt_of_lt_of_le (by omega) (hbody.1 l hl).1
    have hstop : ∀ l, (encItems opts w tl).head? = some l → l.1 ≤ w :=
      fun l hl => le_of_eq (htlsh.2 l hl)
    rw [pItems.eq_def]
    dsimp only
    rw [if_pos rfl]
    show (match pBlockValue (f1 + 1)
            (takeDeeper w (encEntries opts (w + opts.indent) es' ++
              encItems opts w tl)) with
          | Except.ok v =>
            (match pItems (f1 + 1) w
                (dropDeeper w (encEntries opts (w + opts.indent) es' ++
                  encItems opts w tl)) with
             | Except.ok vs => Except.ok (v :: vs)
             | Except.error e => Except.error e)
          | Except.error e => Except.error e) = Except.ok (Value.map es' :: tl)
    rw [takeDeeper_deep_app hdeep, takeDeeper_stop hstop, List.append_nil,
      dropDeeper_deep_app hdeep, dropDeeper_stop hstop]
    rw [pBlockValue_entries
      (fun hb => encEntries_nil opts (w + opts.indent) hwes' hb)
      (fun l hl => hbody.2 l hl)
      (rtEntries opts hind es' (w + opts.indent) f1 hwes' (by
        simp only [List.length_cons, List.length_append] at hf
        omega))]
    dsimp only
    rw [rtItems opts hind tl w (f1 + 1) hwtl (by
      simp only [List.length_cons, List.length_append] at hf
      omega)]
  | .list items' :: tl => fun w fuel hw hf => by
    obtain ⟨hwv, hwtl⟩ := wfL_cons hw
    have hwitems : wfL items' = true := by rwa [wfV_list] at hwv
    obtain ⟨f1, rfl⟩ : ∃ f1, fuel = f1 + 2 := ⟨fuel - 2, by omega⟩
    have htlsh := shape_encItems opts w tl hwtl
    have hstop : ∀ l, (encItems opts w tl).head? = some l → l.1 ≤ w :=
      fun l hl => le_of_eq (htlsh.2 l hl)
    simp only [encItems, encValueB] at hf ⊢
    cases htab : tabularHeads items' with
    | some ks =>
      rw [primListLines, htab] at hf ⊢
      dsimp only at hf ⊢
      simp only [List.cons_append] at hf ⊢
      rw [pItems.eq_def]
      dsimp only
      rw [if_pos rfl, root_header_content]
      show (match parseHeader ((if opts.lengthMarker then ['#'] else []) ++
              (natChars items'.length ++ ']' :: '{' ::
                (joinD opts.delimiter.char (ks.map renderKey) ++
                  ['}', ':']))) with
            | none => Except.error Err.unknownLineForm
            | some (n, form) =>
              (match pListBody (f1 + 1) n form
                  (takeDeeper w (items'.map (fun row =>
                    (w + opts.indent, renderRow opts row)) ++
                    encItems opts w tl)) with
               | Except.ok v =>
                 (match pItems (f1 + 1) w
                     (dropDeeper w (items'.map (fun row =>
                       (w + opts.indent, renderRow opts row)) ++
                       encItems opts w tl)) with
                  | Except.ok vs => Except.ok (v :: vs)
                  | Except.error e => Except.error e)
               | Except.error e => Except.error e)) = Except.ok (Value.list items' :: tl)
      rw [parseHeader_tab opts.lengthMarker items'.length]
      dsimp only
      have hdeep : ∀ l ∈ items'.map (fun row =>
          (w + opts.indent, renderRow opts row)), w < l.1 := by
        intro l hl
        rw [List.mem_map] at hl
        obtain ⟨row, _, rfl⟩ := hl
        show w < w + opts.indent
        omega
      rw [takeDeeper_deep_app hdeep, takeDeeper_stop hstop, List.append_nil,
        dropDeeper_deep_app hdeep, dropDeeper_stop hstop]
      rw [pListBody_tab opts htab hwitems (w + opts.indent) f1]
      dsimp only
      rw [rtItems opts hind tl w (f1 + 1) hwtl (by
        simp only [List.length_cons, List.length_append, List.length_map]
          at hf
        omega)]
    | none =>
      rw [primListLines, htab] at hf ⊢
      by_cases hap : allPrim items' = true
      · rw [if_pos hap] at hf ⊢
        by_cases hemp : items' = []
        · subst hemp
          rw [if_pos (show ([] : List Value).isEmpty = true from rfl)]
            at hf ⊢
          dsimp only at hf ⊢
          simp only [List.singleton_append] at hf ⊢
          rw [pItems.eq_def]
          dsimp only
          rw [if_pos rfl, dash_header_content]
          show (match parseHeader ((if opts.lengthMarker then ['#']
                  else []) ++ (natChars 0 ++ ']' :: [':'])) with
                | none => Except.error Err.unknownLineForm
                | some (n, form) =>
                  (match pListBody (f1 + 1) n form
                      (takeDeeper w (encItems opts w tl)) with
                   | Except.ok v =>
                     (match pItems (f1 + 1) w
                         (dropDeeper w (encItems opts w tl)) with
                      | Except.ok vs => Except.ok (v :: vs)
                      | Except.error e => Except.error e)
                   | Except.error e => Except.error e)) = Except.ok (Value.list [] :: tl)
          rw [parseHeader_block opts.lengthMarker 0]
          dsimp only
          rw [takeDeeper_stop hstop, dropDeeper_stop hstop,
            pListBody_empty f1]
          dsimp only
          rw [rtItems opts hind tl w (f1 + 1) hwtl (by
            simp only [List.length_cons] at hf
            omega)]
        · rw [if_neg (by simp [hemp])] at hf ⊢
          dsimp only at hf ⊢
          simp only [List.singleton_append] at hf ⊢
          rw [pItems.eq_def]
          dsimp only
          rw [if_pos rfl, dash_header_content]
          show (match parseHeader ((if opts.lengthMarker then ['#']
                  else []) ++ (natChars items'.length ++ ']' :: ':' :: ' ' ::
                    joinD opts.delimiter.char (items'.map renderPrim))) with
                | none => Except.error Err.unknownLineForm
                | some (n, form) =>
                  (match pListBody (f1 + 1) n form
                      (takeDeeper w (encItems opts w tl)) with
                   | Except.ok v =>
                     (match pItems (f1 + 1) w
                         (dropDeeper w (encItems opts w tl)) with
                      | Except.ok vs => Except.ok (v :: vs)
                      | Except.error e => Except.error e)
                   | Except.error e => Except.error e)) = Except.ok (Value.list items' :: tl)
          rw [parseHeader_inline opts.lengthMarker items'.length]
          dsimp only
          rw [takeDeeper_stop hstop, dropDeeper_stop hstop,
            pListBody_inline opts hap hemp hwitems f1]
          dsimp only
          rw [rtItems opts hind tl w (f1 + 1) hwtl (by
            simp only [List.length_cons] at hf
            omega)]
      · rw [if_neg hap] at hf ⊢
        dsimp only at hf ⊢
        simp only [List.cons_append] at hf ⊢
        have hitemsne : items' ≠ [] := by
          intro he
          subst he
          exact hap rfl
        have hbodysh := shape_encItems opts (w + opts.indent) items' hwitems
        have hbodyne : encItems opts (w + opts.indent) items' ≠ [] :=
          fun hb => hitemsne (encItems_nil opts _ hwitems hb)
        have hdeep : ∀ l ∈ encItems opts (w + opts.indent) items', w < l.1 :=
          fun l hl => lt_of_lt_of_le (by omega) (hbodysh.1 l hl).1
        rw [pItems.eq_def]
        dsimp only
        rw [if_pos rfl,
          show mixedHeader opts ['-', ' '] items'.length =
            (['-', ' '] ++ lenPart opts items'.length) ++ [':'] from rfl,
          dash_header_content]
        show (match parseHeader ((if opts.lengthMarker then ['#']
                else []) ++ (natChars items'.length ++ ']' :: [':'])) with
              | none => Except.error Err.unknownLineForm
              | some (n, form) =>
                (match pListBody (f1 + 1) n form
                    (takeDeeper w (encItems opts (w + opts.indent) items' ++
                      encItems opts w tl)) with
                 | Except.ok v =>
                   (match pItems (f1 + 1) w
                       (dropDeeper w (encItems opts (w + opts.indent)
                         items' ++ encItems opts w tl)) with
                    | Except.ok vs => Except.ok (v :: vs)
                    | Except.error e => Except.error e)
                 | Except.error e => Except.error e)) = Except.ok (Value.list items' :: tl)
        rw [parseHeader_block opts.lengthMarker items'.length]
        dsimp only
        rw [takeDeeper_deep_app hdeep, takeDeeper_stop hstop,
          List.append_nil, dropDeeper_deep_app hdeep, dropDeeper_stop hstop]
        rw [pListBody_mixed hitemsne (fun l hl => hbodysh.2 l hl) hbodyne
          (rtItems opts hind items' (w + opts.indent) f1 hwitems (by
            simp only [List.length_cons, List.length_append] at hf
            omega))]
        dsimp only
        rw [rtItems opts hind tl w (f1 + 1) hwtl (by
          simp only [List.length_cons, List.length_append] at hf
          omega)]
end

end Toon

namespace Toon

theorem decode_lines (L : List Line)
    (h : ∀ l ∈ L, l.2 ≠ [] ∧ l.2.head? ≠ some ' ' ∧ '\n' ∉ l.2) :
    ∃ F, 2 * L.length + 2 = F + 1 ∧
      decode ⟨joinLines L⟩ = parseRoot (F + 1) L := by
  refine ⟨2 * L.length + 1, rfl, ?_⟩
  simp only [decode]
  rw [show (String.mk (joinLines L)).toList = joinLines L from rfl]
  rw [toLines_joinLines L h]

/-- Round trip at the document level: decoding the encoded text of any
well-formed Value recovers the Value. -/
theorem roundtrip (v : Value) (opts : EncodeOptions) (hind : 1 ≤ opts.indent)
    (hw : wfV v = true) : decode (encode v opts) = Except.ok v := by
  cases v with
  | map es =>
    have hwe : wfE es = true := by rwa [wfV_map] at hw
    cases es with
    | nil => rfl
    | cons e tl =>
      obtain ⟨k, v0⟩ := e
      have hsh := shape_encEntries opts 0 ((k, v0) :: tl) hwe
      have hLok : ∀ l ∈ encEntries opts 0 ((k, v0) :: tl),
          l.2 ≠ [] ∧ l.2.head? ≠ some ' ' ∧ '\n' ∉ l.2 :=
        fun l hl => (hsh.1 l hl).2
      obtain ⟨X, rest0, hXh, hfirst⟩ := encValueB_first opts 0 k v0
      obtain ⟨F, hFeq, hdec⟩ := decode_lines _ hLok
      simp only [encode]
      rw [hdec]
      rw [show encEntries opts 0 ((k, v0) :: tl) =
          encValueB opts 0 (renderKey k ++ [':', ' ']) (renderKey k ++ [':'])
            (renderKey k) v0 ++ encEntries opts 0 tl from by
        simp only [encEntries]]
      rw [hfirst, List.cons_append]
      rw [parseRoot_not_lbrack _ 0 _
        (fun rt => goodTok_app_ne_lbrack (renderKey_goodTok k) X rt)]
      rw [splitKey_renderKey k X hXh]
      dsimp only
      have hfold : (0, renderKey k ++ X) ::
          (rest0 ++ encEntries opts 0 tl) =
          encEntries opts 0 ((k, v0) :: tl) := by
        simp only [encEntries]
        rw [hfirst, List.cons_append]
      rw [hfold]
      rw [rtEntries opts hind ((k, v0) :: tl) 0 (F + 1) hwe (by omega)]
  | list items =>
    have hwitems : wfL items = true := by rwa [wfV_list] at hw
    simp only [encode]
    cases htab : tabularHeads items with
    | some ks =>
      obtain ⟨hks, hitemsne, hrows⟩ := tabularHeads_spec htab
      rw [primListLines, htab]
      dsimp only
      rw [root_header_content]
      have hrowok : ∀ l ∈ items.map (fun row =>
          (0 + opts.indent, renderRow opts row)),
          l.2 ≠ [] ∧ l.2.head? ≠ some ' ' ∧ '\n' ∉ l.2 := by
        intro l hl
        rw [List.mem_map] at hl
        obtain ⟨row, hrowmem, rfl⟩ := hl
        obtain ⟨es, hrow, hfst, hprim⟩ := hrows row hrowmem
        have hesne : es ≠ [] := by
          intro he
          apply hks
          rw [← hfst, he]
          rfl
        have hok := @renderRow_okContent opts _ _ hrow hesne
          (wfL_values hwitems row hrowmem) hprim
        exact ⟨hok.1, hok.2.1, hok.2.2⟩
      have hlok : ∀ l ∈ ((0 : Nat), '[' ::
          ((if opts.lengthMarker then ['#'] else []) ++
            (natChars items.length ++ ']' :: '{' ::
              (joinD opts.delimiter.char (ks.map renderKey) ++
                ['}', ':'])))) :: items.map (fun row =>
            (0 + opts.indent, renderRow opts row)),
          l.2 ≠ [] ∧ l.2.head? ≠ some ' ' ∧ '\n' ∉ l.2 := by
        intro l hl
        rcases List.mem_cons.mp hl with rfl | hlr
        · refine ⟨by simp, by simp, ?_⟩
          show '\n' ∉ '[' :: _
          rw [← root_header_content]
          intro hm
          rcases List.mem_append.mp hm with hx | hx
          · rcases List.mem_append.mp hx with hy | hy
            · cases hy
            · exact lenPart_no_newline opts _ hy
          · exact braces_no_newline opts ks hx
        · exact hrowok l hlr
      obtain ⟨F, hFeq, hdec⟩ := decode_lines _ hlok
      rw [hdec]
      rw [parseRoot.eq_def]
      dsimp only
      show (match parseHeader ((if opts.lengthMarker then ['#'] else []) ++
              (natChars items.length ++ ']' :: '{' ::
                (joinD opts.delimiter.char (ks.map renderKey) ++
                  ['}', ':']))) with
            | none => Except.error Err.unknownLineForm
            | some (n, form) =>
              if (dropDeeper 0 (items.map (fun row =>
                  (0 + opts.indent, renderRow opts row)))).isEmpty then
                pListBody (F + 1) n form (takeDeeper 0 (items.map (fun row =>
                  (0 + opts.indent, renderRow opts row))))
              else Except.error Err.unknownLineForm) =
          Except.ok (Value.list items)
      rw [parseHeader_tab opts.lengthMarker items.length]
      dsimp only
      have hdeep : ∀ l ∈ items.map (fun row =>
          (0 + opts.indent, renderRow opts row)), 0 < l.1 := by
        intro l hl
        rw [List.mem_map] at hl
        obtain ⟨row, _, rfl⟩ := hl
        show 0 < 0 + opts.indent
        omega
      rw [dropDeeper_all hdeep,
        if_pos (show ([] : List Line).isEmpty = true from rfl),
        takeDeeper_all hdeep]
      rw [pListBody_tab opts htab hwitems (0 + opts.indent) F]
    | none =>
      rw [primListLines, htab]
      by_cases hap : allPrim items = true
      · rw [if_pos hap]
        by_cases hemp : items = []
        · subst hemp
          rw [if_pos (show ([] : List Value).isEmpty = true from rfl)]
          dsimp only
          rw [root_header_content]
          have hlok : ∀ l ∈ [((0 : Nat), '[' ::
              ((if opts.lengthMarker then ['#'] else []) ++
                (natChars 0 ++ ']' :: [':'])))],
              l.2 ≠ [] ∧ l.2.head? ≠ some ' ' ∧ '\n' ∉ l.2 := by
            intro l hl
            rw [List.mem_singleton] at hl
            subst hl
            refine ⟨by simp, by simp, ?_⟩
            show '\n' ∉ '[' :: _
            rw [← root_header_content]
            intro hm
            rcases List.mem_append.mp hm with hx | hx
            · rcases List.mem_append.mp hx with hy | hy
              · cases hy
              · exact lenPart_no_newline opts _ hy
            · simp at hx
          obtain ⟨F, hFeq, hdec⟩ := decode_lines _ hlok
          rw [hdec]
          rw [parseRoot.eq_def]
          dsimp only
          show (match parseHeader ((if opts.lengthMarker then ['#']
                  else []) ++ (natChars 0 ++ ']' :: [':'])) with
                | none => Except.error Err.unknownLineForm
                | some (n, form) =>
                  if (dropDeeper 0 ([] : List Line)).isEmpty then
                    pListBody (F + 1) n form (takeDeeper 0 ([] : List Line))
                  else Except.error Err.unknownLineForm) =
              Except.ok (Value.list [])
          rw [parseHeader_block opts.lengthMarker 0]
          dsimp only
          rw [if_pos (show (dropDeeper 0 ([] : List Line)).isEmpty = true
            from rfl)]
          rw [show takeDeeper 0 ([] : List Line) = [] from rfl]
          rw [pListBody_empty F]
        · rw [if_neg (by simp [hemp])]
          dsimp only
          rw [root_header_content]
          have hprim : ∀ x ∈ items, wfV x = true ∧ x.isPrim = true := by
            intro x hx
            rw [allPrim, List.all_eq_true] at hap
            exact ⟨wfL_values hwitems x hx, hap x hx⟩
          have hlok : ∀ l ∈ [((0 : Nat), '[' ::
              ((if opts.lengthMarker then ['#'] else []) ++
                (natChars items.length ++ ']' :: ':' :: ' ' ::
                  joinD opts.delimiter.char (items.map renderPrim))))],
              l.2 ≠ [] ∧ l.2.head? ≠ some ' ' ∧ '\n' ∉ l.2 := by
            intro l hl
            rw [List.mem_singleton] at hl
            subst hl
            refine ⟨by simp, by simp, ?_⟩
            show '\n' ∉ '[' :: _
            rw [← root_header_content]
            intro hm
            rcases List.mem_append.mp hm with hx | hx
            · rcases List.mem_append.mp hx with hy | hy
              · cases hy
              · exact lenPart_no_newline opts _ hy
            · rcases List.mem_cons.mp hx with he | hx2
              · cases he
              · rcases List.mem_cons.mp hx2 with he | hx3
                · cases he
                · refine joinD_no_newline (delim_ne_newline opts.delimiter)
                    ?_ hx3
                  intro p hp
                  rw [List.mem_map] at hp
                  obtain ⟨x, hx4, rfl⟩ := hp
                  exact goodTok_no_newline (renderPrim_goodTok
                    (hprim x hx4).1 (hprim x hx4).2)
          obtain ⟨F, hFeq, hdec⟩ := decode_lines _ hlok
          rw [hdec]
          rw [parseRoot.eq_def]
          dsimp only
          show (match parseHeader ((if opts.lengthMarker then ['#']
                  else []) ++ (natChars items.length ++ ']' :: ':' :: ' ' ::
                    joinD opts.delimiter.char (items.map renderPrim))) with
                | none => Except.error Err.unknownLineForm
                | some (n, form) =>
                  if (dropDeeper 0 ([] : List Line)).isEmpty then
                    pListBody (F + 1) n form (takeDeeper 0 ([] : List Line))
                  else Except.error Err.unknownLineForm) =
              Except.ok (Value.list items)
          rw [parseHeader_inline opts.lengthMarker items.length]
          dsimp only
          rw [if_pos (show (dropDeeper 0 ([] : List Line)).isEmpty = true
            from rfl)]
          rw [show takeDeeper 0 ([] : List Line) = [] from rfl]
          rw [pListBody_inline opts hap hemp hwitems F]
      · rw [if_neg hap]
        dsimp only
        have hitemsne : items ≠ [] := by
          intro he
          subst he
          exact hap rfl
        have hbodysh := shape_encItems opts opts.indent items hwitems
        have hbodyne : encItems opts opts.indent items ≠ [] :=
          fun hb => hitemsne (encItems_nil opts _ hwitems hb)
        have hdeep : ∀ l ∈ encItems opts opts.indent items, 0 < l.1 :=
          fun l hl => lt_of_lt_of_le (by omega) (hbodysh.1 l hl).1
        rw [show mixedHeader opts [] items.length =
            (([] : List Char) ++ lenPart opts items.length) ++ [':']
          from rfl]
        rw [root_header_content]
        have hlok : ∀ l ∈ ((0 : Nat), '[' ::
            ((if opts.lengthMarker then ['#'] else []) ++
              (natChars items.length ++ ']' :: [':']))) ::
            encItems opts opts.indent items,
            l.2 ≠ [] ∧ l.2.head? ≠ some ' ' ∧ '\n' ∉ l.2 := by
          intro l hl
          rcases List.mem_cons.mp hl with rfl | hlr
          · refine ⟨by simp, by simp, ?_⟩
            show '\n' ∉ '[' :: _
            rw [← root_header_content]
            intro hm
            rcases List.mem_append.mp hm with hx | hx
            · rcases List.mem_append.mp hx with hy | hy
              · cases hy
              · exact lenPart_no_newline opts _ hy
            · simp at hx
          · exact (hbodysh.1 l hlr).2
        obtain ⟨F, hFeq, hdec⟩ := decode_lines _ hlok
        rw [hdec]
        rw [parseRoot.eq_def]
        dsimp only
        show (match parseHeader ((if opts.lengthMarker then ['#']
                else []) ++ (natChars items.length ++ ']' :: [':'])) with
              | none => Except.error Err.unknownLineForm
              | some (n, form) =>
                if (dropDeeper 0 (encItems opts opts.indent items)).isEmpty
                then pListBody (F + 1) n form
                  (takeDeeper 0 (encItems opts opts.indent items))
                else Except.error Err.unknownLineForm) =
            Except.ok (Value.list items)
        rw [parseHeader_block opts.lengthMarker items.length]
        dsimp only
        rw [dropDeeper_all hdeep,
          if_pos (show ([] : List Line).isEmpty = true from rfl),
          takeDeeper_all hdeep]
        rw [pListBody_mixed hitemsne (fun l hl => hbodysh.2 l hl) hbodyne
          (rtItems opts hind items opts.indent F hwitems (by
            simp only [List.length_cons] at hFeq
            omega))]
  | null =>
    have hgt := renderPrim_goodTok hw rfl
    have hok := goodTok_okContent hgt
    have hlok : ∀ l ∈ [((0 : Nat), renderPrim Value.null)],
        l.2 ≠ [] ∧ l.2.head? ≠ some ' ' ∧ '\n' ∉ l.2 := by
      intro l hl
      rw [List.mem_singleton] at hl
      subst hl
      exact ⟨hok.1, hok.2.1, hok.2.2⟩
    obtain ⟨F, hFeq, hdec⟩ := decode_lines _ hlok
    simp only [encode]
    rw [hdec]
    rw [parseRoot_not_lbrack _ 0 _ (fun rt => goodTok_ne_lbrack hgt rt)]
    rw [splitKey_goodTok_none hgt]
    dsimp only
    rw [if_pos (show ([] : List Line).isEmpty = true from rfl)]
    exact parseScalarToken_renderPrim hw rfl
  | bool b =>
    have hgt := renderPrim_goodTok hw rfl
    have hok := goodTok_okContent hgt
    have hlok : ∀ l ∈ [((0 : Nat), renderPrim (Value.bool b))],
        l.2 ≠ [] ∧ l.2.head? ≠ some ' ' ∧ '\n' ∉ l.2 := by
      intro l hl
      rw [List.mem_singleton] at hl
      subst hl
      exact ⟨hok.1, hok.2.1, hok.2.2⟩
    obtain ⟨F, hFeq, hdec⟩ := decode_lines _ hlok
    simp only [encode]
    rw [hdec]
    rw [parseRoot_not_lbrack _ 0 _ (fun rt => goodTok_ne_lbrack hgt rt)]
    rw [splitKey_goodTok_none hgt]
    dsimp only
    rw [if_pos (show ([] : List Line).isEmpty = true from rfl)]
    exact parseScalarToken_renderPrim hw rfl
  | num lit =>
    have hgt := renderPrim_goodTok hw rfl
    have hok := goodTok_okContent hgt
    have hlok : ∀ l ∈ [((0 : Nat), renderPrim (Value.num lit))],
        l.2 ≠ [] ∧ l.2.head? ≠ some ' ' ∧ '\n' ∉ l.2 := by
      intro l hl
      rw [List.mem_singleton] at hl
      subst hl
      exact ⟨hok.1, hok.2.1, hok.2.2⟩
    obtain ⟨F, hFeq, hdec⟩ := decode_lines _ hlok
    simp only [encode]
    rw [hdec]
    rw [parseRoot_not_lbrack _ 0 _ (fun rt => goodTok_ne_lbrack hgt rt)]
    rw [splitKey_goodTok_none hgt]
    dsimp only
    rw [if_pos (show ([] : List Line).isEmpty = true from rfl)]
    exact parseScalarToken_renderPrim hw rfl
  | str s =>
    have hgt := renderPrim_goodTok hw rfl
    have hok := goodTok_okContent hgt
    have hlok : ∀ l ∈ [((0 : Nat), renderPrim (Value.str s))],
        l.2 ≠ [] ∧ l.2.head? ≠ some ' ' ∧ '\n' ∉ l.2 := by
      intro l hl
      rw [List.mem_singleton] at hl
      subst hl
      exact ⟨hok.1, hok.2.1, hok.2.2⟩
    obtain ⟨F, hFeq, hdec⟩ := decode_lines _ hlok
    simp only [encode]
    rw [hdec]
    rw [parseRoot_not_lbrack _ 0 _ (fun rt => goodTok_ne_lbrack hgt rt)]
    rw [splitKey_goodTok_none hgt]
    dsimp only
    rw [if_pos (show ([] : List Line).isEmpty = true from rfl)]
    exact parseScalarToken_renderPrim hw rfl

end Toon

/-- C1: for every Value tree free of duplicate Map keys whose Number
literals are in canonical textual form (well-formedness), and every
options combination (any of the three delimiters, `lengthMarker` on or
off, indent between 1 and 4), decoding the encoding of `v` yields `v`
again. -/
theorem decode_encode (v : Toon.Value) (opts : Toon.EncodeOptions)
    (hwf : Toon.wfV v = true) (hdup : Toon.dupFreeV v = true)
    (hind : 1 ≤ opts.indent ∧ opts.indent ≤ 4) :
    Toon.decode (Toon.encode v opts) = Except.ok v :=
  Toon.roundtrip v opts hind.1 hwf

/-- C1 witness: the round trip at a concrete mixed fixture with default
options. -/
theorem decode_encode_witness :
    Toon.wfV rtFix = true ∧ Toon.dupFreeV rtFix = true ∧
    (1 ≤ Toon.defaultOpts.indent ∧ Toon.defaultOpts.indent ≤ 4) ∧
    Toon.decode (Toon.encode rtFix Toon.defaultOpts) = Except.ok rtFix :=
  ⟨rfl, rfl, ⟨by decide, by decide⟩,
    decode_encode rtFix Toon.defaultOpts rfl rfl ⟨by decide, by decide⟩⟩

/-- C8: an empty List stored under a plainly-rendered key `k` encodes (with
the `#` marker disabled) as exactly the single line `k[0]:` with no data
lines, and decoding that text yields the empty List back under `k`. -/
theorem empty_list_key_roundtrip (k : String) (opts : Toon.EncodeOptions)
    (hk : Toon.renderKey k = k.toList)
    (hm : opts.lengthMarker = false) (hind : 1 ≤ opts.indent) :
    Toon.encode (.map [(k, .list [])]) opts =
      ⟨k.toList ++ ['[', '0', ']', ':']⟩ ∧
    Toon.decode ⟨k.toList ++ ['[', '0', ']', ':']⟩ =
      Except.ok (.map [(k, .list [])]) := by
  have hwf : Toon.wfV (.map [(k, .list [])]) = true := rfl
  have h1 : Toon.encEntries opts 0 [(k, Toon.Value.list [])] =
      [(0, Toon.renderKey k ++ Toon.lenPart opts 0 ++ [':'])] := rfl
  have henc : Toon.encode (.map [(k, .list [])]) opts =
      ⟨k.toList ++ ['[', '0', ']', ':']⟩ := by
    simp only [Toon.encode]
    refine congrArg String.mk ?_
    rw [h1, Toon.joinLines_singleton]
    show Toon.renderKey k ++ Toon.lenPart opts 0 ++ [':'] =
      k.toList ++ ['[', '0', ']', ':']
    rw [hk, Toon.lenPart, hm,
      show Toon.natChars 0 = ['0'] from rfl]
    simp
  exact ⟨henc, by rw [← henc]; exact Toon.roundtrip _ opts hind hwf⟩

/-- C8 witness: the key `items` with default options. -/
theorem empty_list_key_roundtrip_witness :
    Toon.renderKey "items" = "items".toList ∧
    Toon.defaultOpts.lengthMarker = false ∧
    1 ≤ Toon.defaultOpts.indent ∧
    (Toon.encode (.map [("items", .list [])]) Toon.defaultOpts =
        ⟨"items".toList ++ ['[', '0', ']', ':']⟩ ∧
      Toon.decode ⟨"items".toList ++ ['[', '0', ']', ':']⟩ =
        Except.ok (.map [("items", .list [])])) :=
  ⟨rfl, rfl, by decide,
    empty_list_key_roundtrip "items" Toon.defaultOpts rfl rfl (by decide)⟩
